import Mathlib

/-!
Verification development for the freenet search engine contracts.

The Rust sources are shallowly embedded:
* Rust `String` values and byte vectors (`Vec<u8>`, `[u8; 32]`) are modelled
  as `List Nat` of byte values; Rust byte-length is list length, and the
  byte-lexicographic `BTreeMap` key order is the lexicographic order on
  `List Nat` (for UTF-8 strings, byte order and codepoint order coincide).
* `BTreeMap` values are modelled as association lists ordered by key; the
  insert-or-update entry point `entry(k).or_insert_with(..)` followed by
  in-place mutation is modelled by `alterAL`.
* Machine integers (`u8`, `u32`, `u64`) are modelled as `Nat`; where the
  source truncates (`as u32`) the model reduces modulo `2 ^ 32` explicitly.
* SHA-256 digests are modelled by their exact preimage byte string: the
  source hashes the length-prefixed concatenation defined in
  `search-common/src/hashing.rs`, and we keep that byte string itself as the
  digest value.  This is faithful up to SHA-256 collisions.  Hash functions
  whose output distribution matters but whose algebra does not (bloom
  positions, shard routing) are abstracted as function parameters.
* CBOR encoding/decoding at the contract boundary is not modelled;
  operations act on decoded states.  CBOR serialization of these types is
  deterministic and injective, so equality of decoded states is equivalent
  to bit-identical serialized states.
-/

/-- Byte strings: Rust `String` / `Vec<u8>` / `[u8; 32]` as lists of byte values. -/
abbrev Bytes := List Nat

namespace SearchCommon

/-- Big-endian 8-byte encoding of a `u64`, as in `u64::to_be_bytes`. -/
def be64 (n : Nat) : Bytes :=
  [n / 2 ^ 56 % 256, n / 2 ^ 48 % 256, n / 2 ^ 40 % 256, n / 2 ^ 32 % 256,
   n / 2 ^ 24 % 256, n / 2 ^ 16 % 256, n / 2 ^ 8 % 256, n % 256]

/-- Big-endian decoding of 8 bytes into a `u64`, as in `u64::from_be_bytes`. -/
def be64dec (bs : Bytes) : Nat :=
  match bs with
  | [b0, b1, b2, b3, b4, b5, b6, b7] =>
      b0 * 2 ^ 56 + b1 * 2 ^ 48 + b2 * 2 ^ 40 + b3 * 2 ^ 32 +
      b4 * 2 ^ 24 + b5 * 2 ^ 16 + b6 * 2 ^ 8 + b7
  | _ => 0

theorem be64_length (n : Nat) : (be64 n).length = 8 := rfl

theorem be64dec_be64 (n : Nat) (h : n < 2 ^ 64) : be64dec (be64 n) = n := by
  simp only [be64, be64dec]
  omega

theorem be64_inj {m n : Nat} (hm : m < 2 ^ 64) (hn : n < 2 ^ 64)
    (h : be64 m = be64 n) : m = n := by
  have := congrArg be64dec h
  rwa [be64dec_be64 m hm, be64dec_be64 n hn] at this

/-- Metadata digest from `search-common/src/hashing.rs`: the source computes
`sha256(be64(len title) ++ title ++ be64(len description) ++ description ++
be64(len snippet) ++ snippet)`; we model the digest by the hashed byte string
itself (faithful up to SHA-256 collisions). -/
def metadata_hash (title description snippet : Bytes) : Bytes :=
  be64 title.length ++ title ++ be64 description.length ++ description ++
  be64 snippet.length ++ snippet

theorem metadata_hash_inj {t₁ d₁ s₁ t₂ d₂ s₂ : Bytes}
    (ht₁ : t₁.length < 2 ^ 64) (hd₁ : d₁.length < 2 ^ 64)
    (ht₂ : t₂.length < 2 ^ 64) (hd₂ : d₂.length < 2 ^ 64)
    (h : metadata_hash t₁ d₁ s₁ = metadata_hash t₂ d₂ s₂) :
    t₁ = t₂ ∧ d₁ = d₂ ∧ s₁ = s₂ := by
  unfold metadata_hash at h
  rw [List.append_assoc, List.append_assoc, List.append_assoc, List.append_assoc,
      List.append_assoc, List.append_assoc, List.append_assoc, List.append_assoc] at h
  obtain ⟨hlen, h⟩ := List.append_inj h (by rw [be64_length, be64_length])
  have htlen : t₁.length = t₂.length := be64_inj ht₁ ht₂ hlen
  obtain ⟨ht, h⟩ := List.append_inj h htlen
  obtain ⟨hdlen, h⟩ := List.append_inj h (by rw [be64_length, be64_length])
  have hdlen' : d₁.length = d₂.length := be64_inj hd₁ hd₂ hdlen
  obtain ⟨hd, h⟩ := List.append_inj h hdlen'
  obtain ⟨-, hs⟩ := List.append_inj h (by rw [be64_length, be64_length])
  exact ⟨ht, hd, hs⟩

end SearchCommon

section AList

variable {V : Type}

/-- Sorted-association-list model of `BTreeMap` insert-or-update: the Rust
pattern `map.entry(k).or_insert_with(default)` followed by in-place mutation
of the value is `alterAL k f m` where `f none` builds the mutated default and
`f (some v)` mutates the existing value. -/
def alterAL (k : Bytes) (f : Option V → V) : List (Bytes × V) → List (Bytes × V)
  | [] => [(k, f none)]
  | (k', v) :: rest =>
    if k < k' then (k, f none) :: (k', v) :: rest
    else if k = k' then (k, f (some v)) :: rest
    else (k', v) :: alterAL k f rest

/-- Lookup in an association list, modelling `BTreeMap::get`. -/
def lookupAL (m : List (Bytes × V)) (k : Bytes) : Option V :=
  match m with
  | [] => none
  | (k', v) :: rest => if k = k' then some v else lookupAL rest k

theorem alterAL_alterAL_same (k : Bytes) (f g : Option V → V) (m : List (Bytes × V)) :
    alterAL k f (alterAL k g m) = alterAL k (fun o => f (some (g o))) m := by
  induction m with
  | nil =>
      simp [alterAL, lt_irrefl]
  | cons p rest ih =>
      obtain ⟨k', v⟩ := p
      rcases lt_trichotomy k k' with hlt | heq | hgt
      · simp [alterAL, hlt, lt_irrefl, ne_of_lt hlt]
      · subst heq
        simp [alterAL, lt_irrefl]
      · have hne : k ≠ k' := ne_of_gt hgt
        have hnlt : ¬ k < k' := not_lt_of_gt hgt
        simp [alterAL, hnlt, hne, ih]

theorem alterAL_comm_ne {k₁ k₂ : Bytes} (h : k₁ ≠ k₂) (f₁ f₂ : Option V → V)
    (m : List (Bytes × V)) :
    alterAL k₁ f₁ (alterAL k₂ f₂ m) = alterAL k₂ f₂ (alterAL k₁ f₁ m) := by
  induction m with
  | nil =>
      rcases lt_trichotomy k₁ k₂ with hlt | heq | hgt
      · simp [alterAL, hlt, not_lt_of_gt hlt, h, (h.symm : k₂ ≠ k₁)]
      · exact absurd heq h
      · simp [alterAL, hgt, not_lt_of_gt hgt, h, (h.symm : k₂ ≠ k₁)]
  | cons p rest ih =>
      obtain ⟨k', v⟩ := p
      rcases lt_trichotomy k₁ k' with hlt1 | heq1 | hgt1
      · rcases lt_trichotomy k₂ k' with hlt2 | heq2 | hgt2
        · rcases lt_trichotomy k₁ k₂ with hlt | heq | hgt
          · simp [alterAL, hlt1, hlt2, hlt, not_lt_of_gt hlt, h, (h.symm : k₂ ≠ k₁)]
          · exact absurd heq h
          · simp [alterAL, hlt1, hlt2, hgt, not_lt_of_gt hgt, h, (h.symm : k₂ ≠ k₁)]
        · subst heq2
          simp [alterAL, hlt1, lt_irrefl, h, (h.symm : k₂ ≠ k₁), not_lt_of_gt hlt1]
        · have hlt : k₁ < k₂ := lt_trans hlt1 hgt2
          simp [alterAL, hlt1, not_lt_of_gt hgt2, ne_of_gt hgt2, hlt,
            not_lt_of_gt hlt, (h.symm : k₂ ≠ k₁)]
      · subst heq1
        rcases lt_trichotomy k₂ k₁ with hlt2 | heq2 | hgt2
        · simp [alterAL, lt_irrefl, hlt2, not_lt_of_gt hlt2, h, (h.symm : k₂ ≠ k₁)]
        · exact absurd heq2.symm h
        · simp [alterAL, lt_irrefl, hgt2, not_lt_of_gt hgt2, h, (h.symm : k₂ ≠ k₁)]
      · rcases lt_trichotomy k₂ k' with hlt2 | heq2 | hgt2
        · have hgt : k₂ < k₁ := lt_trans hlt2 hgt1
          simp [alterAL, hlt2, not_lt_of_gt hgt1, ne_of_gt hgt1, hgt,
            not_lt_of_gt hgt, h, (h.symm : k₂ ≠ k₁)]
        · subst heq2
          simp [alterAL, lt_irrefl, not_lt_of_gt hgt1, ne_of_gt hgt1, h,
            (h.symm : k₂ ≠ k₁)]
        · simp [alterAL, not_lt_of_gt hgt1, ne_of_gt hgt1, not_lt_of_gt hgt2,
            ne_of_gt hgt2, ih]

theorem mem_alterAL {k : Bytes} {f : Option V → V} {m : List (Bytes × V)}
    {p : Bytes × V} (hp : p ∈ alterAL k f m) :
    p.1 = k ∨ ∃ v, (p.1, v) ∈ m := by
  induction m with
  | nil =>
      simp only [alterAL, List.mem_singleton] at hp
      exact Or.inl (by rw [hp])
  | cons q rest ih =>
      obtain ⟨k', v⟩ := q
      simp only [alterAL] at hp
      split at hp
      · rcases List.mem_cons.1 hp with h | h
        · exact Or.inl (by rw [h])
        · rcases List.mem_cons.1 h with h' | h'
          · exact Or.inr ⟨v, by rw [h']; exact List.mem_cons_self _ _⟩
          · exact Or.inr ⟨p.2, List.mem_cons_of_mem _ (by simpa using h')⟩
      · split at hp
        · rcases List.mem_cons.1 hp with h | h
          · exact Or.inl (by rw [h])
          · exact Or.inr ⟨p.2, List.mem_cons_of_mem _ (by simpa using h)⟩
        · rcases List.mem_cons.1 hp with h | h
          · exact Or.inr ⟨v, by rw [h]; exact List.mem_cons_self _ _⟩
          · rcases ih h with h' | ⟨w, hw⟩
            · exact Or.inl h'
            · exact Or.inr ⟨w, List.mem_cons_of_mem _ hw⟩

end AList

namespace ContractCatalog

open SearchCommon

/-- Lifecycle status of a catalog entry (`search-common/src/types.rs`). -/
inductive Status
  | pending
  | confirmed
  | disputed
  | expired
deriving DecidableEq

/-- Proof-of-work antiflood token (`search-common/src/types.rs`). -/
structure AntifloodToken where
  nonce : Bytes
  difficulty : Nat
deriving DecidableEq

/-- An attestation from a contributor (`search-common/src/types.rs`). -/
structure Attestation where
  contributor_pubkey : Bytes
  antiflood_token : AntifloodToken
  token_created_at : Nat
  weight : Nat
deriving DecidableEq

/-- A specific metadata variant for a catalog entry (`search-common/src/types.rs`). -/
structure HashVariant where
  title : Bytes
  description : Bytes
  mini_snippet : Bytes
  attestations : List Attestation
  total_weight : Nat
deriving DecidableEq

/-- A single indexed contract in the catalog; `hash_variants` models the
`BTreeMap<[u8; 32], HashVariant>` as a key-ordered association list. -/
structure CatalogEntry where
  contract_key : Bytes
  hash_variants : List (Bytes × HashVariant)
  size_bytes : Nat
  version : Option Nat
  status : Status
  first_seen : Nat
  last_seen : Nat
deriving DecidableEq

/-- Reputation score for a contributor (`search-common/src/types.rs`). -/
structure ContributorScore where
  pubkey : Bytes
  trust_score : Nat
  total_contributions : Nat
deriving DecidableEq

/-- Full state of the SearchCatalog contract; both `BTreeMap`s are modelled
as key-ordered association lists. -/
structure CatalogState where
  entries : List (Bytes × CatalogEntry)
  contributors : List (Bytes × ContributorScore)
deriving DecidableEq

/-- Delta for updating the SearchCatalog (`search-common/src/types.rs`). -/
structure CatalogDelta where
  contract_key : Bytes
  title : Bytes
  description : Bytes
  mini_snippet : Bytes
  snippet : Bytes
  size_bytes : Nat
  version : Option Nat
  metadata_hash : Bytes
  attestation : Attestation
deriving DecidableEq

/-- Contract error verdicts (`freenet_stdlib` `ContractError`), restricted to
the constructors the embedded code produces. -/
inductive CErr
  | invalidState
  | invalidUpdate
deriving DecidableEq

/-- Attestation ordering used by `sort_by(|a, b| a.contributor_pubkey.cmp(&b.contributor_pubkey))`. -/
def attLe (a b : Attestation) : Prop :=
  a.contributor_pubkey ≤ b.contributor_pubkey

instance : DecidableRel attLe := fun a b =>
  inferInstanceAs (Decidable (a.contributor_pubkey ≤ b.contributor_pubkey))

instance : IsTotal Attestation attLe :=
  ⟨fun a b => le_total a.contributor_pubkey b.contributor_pubkey⟩

instance : IsTrans Attestation attLe :=
  ⟨fun _ _ _ h₁ h₂ => le_trans h₁ h₂⟩

/-- Model of Rust's stable `sort_by` on attestations: a stable sort of a list
is its insertion sort under the same total preorder. -/
def sortAtts (l : List Attestation) : List Attestation :=
  List.insertionSort attLe l

/-- Insert an attestation after all elements whose pubkey is not strictly
greater; this is where a stable sort places a newly appended element. -/
def insLast (x : Attestation) : List Attestation → List Attestation
  | [] => [x]
  | b :: l =>
    if x.contributor_pubkey < b.contributor_pubkey then x :: b :: l
    else b :: insLast x l

theorem orderedInsert_insLast (a x : Attestation) (m : List Attestation) :
    List.orderedInsert attLe a (insLast x m) = insLast x (List.orderedInsert attLe a m) := by
  induction m with
  | nil =>
      by_cases hax : attLe a x
      · have hxa : ¬ x.contributor_pubkey < a.contributor_pubkey := not_lt_of_ge hax
        simp [insLast, List.orderedInsert, hax, hxa]
      · have hxa : x.contributor_pubkey < a.contributor_pubkey :=
          lt_of_not_ge (fun hc => hax hc)
        simp [insLast, List.orderedInsert, hax, hxa]
  | cons b l ih =>
      by_cases hxb : x.contributor_pubkey < b.contributor_pubkey
      · by_cases hab : attLe a b
        · by_cases hax : attLe a x
          · have hxa : ¬ x.contributor_pubkey < a.contributor_pubkey := not_lt_of_ge hax
            simp [insLast, List.orderedInsert, hxb, hab, hax, hxa]
          · have hxa : x.contributor_pubkey < a.contributor_pubkey :=
              lt_of_not_ge (fun hc => hax hc)
            have hab' : attLe a b := hab
            simp [insLast, List.orderedInsert, hxb, hab, hax, hxa, hab']
        · have hax : ¬ attLe a x := by
            intro hc
            exact hab (le_of_lt (lt_of_le_of_lt hc hxb))
          have hxa : x.contributor_pubkey < a.contributor_pubkey :=
            lt_of_not_ge (fun hc => hax hc)
          simp [insLast, List.orderedInsert, hxb, hab, hax, hxa, ih]
      · by_cases hab : attLe a b
        · have hax : attLe a x := by
            have hbx : attLe b x := le_of_not_lt hxb
            exact le_trans hab hbx
          have hxa : ¬ x.contributor_pubkey < a.contributor_pubkey := not_lt_of_ge hax
          simp [insLast, List.orderedInsert, hxb, hab, hax, hxa]
        · simp [insLast, List.orderedInsert, hxb, hab, ih]

theorem sortAtts_append_singleton (l : List Attestation) (x : Attestation) :
    sortAtts (l ++ [x]) = insLast x (sortAtts l) := by
  induction l with
  | nil => simp [sortAtts, List.insertionSort, insLast]
  | cons a l ih =>
      have h1 : sortAtts ((a :: l) ++ [x]) =
          List.orderedInsert attLe a (sortAtts (l ++ [x])) := rfl
      have h2 : sortAtts (a :: l) = List.orderedInsert attLe a (sortAtts l) := rfl
      rw [h1, h2, ih, orderedInsert_insLast]

theorem sortAtts_idem (l : List Attestation) :
    sortAtts (sortAtts l) = sortAtts l :=
  List.Sorted.insertionSort_eq (List.sorted_insertionSort attLe l)

theorem insLast_comm {x y : Attestation}
    (h : x.contributor_pubkey ≠ y.contributor_pubkey) (m : List Attestation) :
    insLast x (insLast y m) = insLast y (insLast x m) := by
  induction m with
  | nil =>
      rcases lt_trichotomy x.contributor_pubkey y.contributor_pubkey with hlt | heq | hgt
      · simp [insLast, hlt, not_lt_of_gt hlt]
      · exact absurd heq h
      · simp [insLast, hgt, not_lt_of_gt hgt]
  | cons b l ih =>
      by_cases hxb : x.contributor_pubkey < b.contributor_pubkey
      · by_cases hyb : y.contributor_pubkey < b.contributor_pubkey
        · rcases lt_trichotomy x.contributor_pubkey y.contributor_pubkey with hlt | heq | hgt
          · simp [insLast, hxb, hyb, hlt, not_lt_of_gt hlt]
          · exact absurd heq h
          · simp [insLast, hxb, hyb, hgt, not_lt_of_gt hgt]
        · have hxy : x.contributor_pubkey < y.contributor_pubkey :=
            lt_of_lt_of_le hxb (le_of_not_lt hyb)
          simp [insLast, hxb, hyb, hxy, not_lt_of_gt hxy]
      · by_cases hyb : y.contributor_pubkey < b.contributor_pubkey
        · have hyx : y.contributor_pubkey < x.contributor_pubkey :=
            lt_of_lt_of_le hyb (le_of_not_lt hxb)
          simp [insLast, hxb, hyb, hyx, not_lt_of_gt hyx]
        · simp [insLast, hxb, hyb, ih]

theorem any_orderedInsert (f : Attestation → Bool) (a : Attestation)
    (l : List Attestation) :
    (List.orderedInsert attLe a l).any f = (f a || l.any f) := by
  induction l with
  | nil => simp [List.orderedInsert]
  | cons b l ih =>
      by_cases hab : attLe a b
      · simp [List.orderedInsert, hab]
      · simp only [List.orderedInsert, if_neg hab, List.any_cons, ih]
        cases f a <;> cases f b <;> simp

theorem any_sortAtts (f : Attestation → Bool) (l : List Attestation) :
    (sortAtts l).any f = l.any f := by
  induction l with
  | nil => rfl
  | cons a l ih =>
      simp only [sortAtts, List.insertionSort] at *
      rw [any_orderedInsert, ih, List.any_cons]

end ContractCatalog

namespace ContractCatalog

open SearchCommon

/-- Value of `u64::MAX`, the initial `first_seen` of a fresh entry. -/
def u64max : Nat := 2 ^ 64 - 1

/-- Model of Rust `Iterator::max_by_key`, which returns the last element
attaining the maximal key. -/
def max_by_key_last {α : Type} (f : α → Nat) (l : List α) : Option α :=
  l.foldl (fun acc x =>
    match acc with
    | none => some x
    | some y => if f y ≤ f x then some x else some y) none

/-- Max-wins merge of optional versions, as in the `match` on
`(entry.version, delta.version)` in `contract-catalog/src/lib.rs`. -/
def maxVer : Option Nat → Option Nat → Option Nat
  | some a, some b => some (max a b)
  | some v, none => some v
  | none, some v => some v
  | none, none => none

/-- Membership test `attestations.iter().any(|a| a.contributor_pubkey == p)`. -/
def hasPubkey (p : Bytes) (l : List Attestation) : Bool :=
  l.any fun a => decide (a.contributor_pubkey = p)

/-- Delta validation, translated from `validate_delta` in
`contract-catalog/src/lib.rs` (lines 126-152), with the checks in source
order.  Note the hash check covers the delta's `snippet` field. -/
def validate_delta (d : CatalogDelta) : Except CErr Unit :=
  if d.contract_key = [] then .error .invalidUpdate
  else if 256 < d.title.length then .error .invalidUpdate
  else if 1024 < d.description.length then .error .invalidUpdate
  else if d.attestation.antiflood_token.nonce = [] ∨
          d.attestation.antiflood_token.difficulty = 0 then .error .invalidUpdate
  else if d.attestation.contributor_pubkey = List.replicate 32 0 then .error .invalidUpdate
  else if d.attestation.token_created_at = 0 then .error .invalidUpdate
  else if d.metadata_hash ≠ metadata_hash d.title d.description d.snippet then
    .error .invalidUpdate
  else .ok ()

/-- Fresh entry inserted by `or_insert_with` in `apply_delta_to_state`. -/
def defaultEntry (key : Bytes) : CatalogEntry :=
  ⟨key, [], 0, none, .pending, u64max, 0⟩

/-- Fresh variant inserted by `or_insert_with` in `apply_delta_to_state`. -/
def defaultVariant : HashVariant := ⟨[], [], [], [], 0⟩

/-- The in-place mutation `apply_delta_to_state` performs on the variant for
`delta.metadata_hash` (text overwrite from the delta — note `mini_snippet`
is set from the delta's `snippet` field — pubkey-deduplicated attestation
insert followed by a stable sort by pubkey, and total-weight recompute). -/
def updateVariant (d : CatalogDelta) (weight : Nat) (ov : Option HashVariant) :
    HashVariant :=
  let variant := ov.getD defaultVariant
  let variant := { variant with
    title := d.title, description := d.description, mini_snippet := d.snippet }
  let variant :=
    if hasPubkey d.attestation.contributor_pubkey variant.attestations then variant
    else
      let atts := sortAtts (variant.attestations ++ [{ d.attestation with weight := weight }])
      { variant with attestations := atts }
  { variant with total_weight := (variant.attestations.map Attestation.weight).sum }

/-- The in-place mutation `apply_delta_to_state` performs on the entry for
`delta.contract_key` (variant upsert, then max/min-wins scalar updates). -/
def updateEntry (d : CatalogDelta) (weight : Nat) (oe : Option CatalogEntry) :
    CatalogEntry :=
  let entry := oe.getD (defaultEntry d.contract_key)
  let hv := alterAL d.metadata_hash (updateVariant d weight) entry.hash_variants
  let entry := { entry with hash_variants := hv }
  { entry with
      size_bytes := max entry.size_bytes d.size_bytes,
      version := maxVer entry.version d.version,
      first_seen := min entry.first_seen d.attestation.token_created_at,
      last_seen := max entry.last_seen d.attestation.token_created_at }

/-- Delta application, translated from `apply_delta_to_state` in
`contract-catalog/src/lib.rs` (lines 154-213); the contributor table is read
for the weight but never modified. -/
def apply_delta_to_state (s : CatalogState) (d : CatalogDelta) : CatalogState :=
  let trust_score :=
    ((lookupAL s.contributors d.attestation.contributor_pubkey).map
      ContributorScore.trust_score).getD 0
  let weight := 1 + trust_score
  { s with entries := alterAL d.contract_key (updateEntry d weight) s.entries }

/-- Status derivation, translated from `derive_status` in
`contract-catalog/src/lib.rs` (lines 38-58): attestation counts are sorted
descending, and `best`/`second` are the first two (0 when absent). -/
def derive_status (e : CatalogEntry) (threshold : Nat) : Status :=
  let counts := List.insertionSort (fun a b : Nat => b ≤ a)
    (e.hash_variants.map fun p => p.2.attestations.length)
  let best := counts.head?.getD 0
  let second := (counts.drop 1).head?.getD 0
  if threshold ≤ best then
    if 0 < second ∧ best * 30 < second * 100 then .disputed else .confirmed
  else .pending

/-- Trust computation, translated from `compute_trust_from_entries` in
`contract-catalog/src/lib.rs` (lines 217-237): count, per contributor, the
entries whose derived status is Confirmed or Disputed and whose winning
variant (max attestation count, last on ties as `max_by_key` does) contains
an attestation by that contributor. -/
def compute_trust_from_entries (s : CatalogState) (threshold : Nat) :
    List (Bytes × Nat) :=
  s.entries.foldl (fun trust p =>
    let status := derive_status p.2 threshold
    if status = .confirmed ∨ status = .disputed then
      match max_by_key_last (fun q => q.2.attestations.length) p.2.hash_variants with
      | some q => q.2.attestations.foldl
          (fun m a => alterAL a.contributor_pubkey (fun o => o.getD 0 + 1) m) trust
      | none => trust
    else trust) []

/-- Max-wins merge of a computed trust value into a contributor score, as in
finalization step 2 of `finalize_state`. -/
def mergeTrustScore (t : Nat) (pk : Bytes) (o : Option ContributorScore) :
    ContributorScore :=
  let score := o.getD ⟨pk, 0, 0⟩
  { score with
      trust_score := max score.trust_score t,
      total_contributions := max score.total_contributions t }

/-- Weight recompute of finalization step 3: every attestation's weight
becomes `1 + trust_score` from the post-step-2 contributor table, and each
variant's `total_weight` is recomputed. -/
def reweightVariant (contributors : List (Bytes × ContributorScore))
    (q : Bytes × HashVariant) : Bytes × HashVariant :=
  let atts := q.2.attestations.map fun a =>
    { a with weight := 1 + ((lookupAL contributors a.contributor_pubkey).map
        ContributorScore.trust_score).getD 0 }
  (q.1, { q.2 with
      attestations := atts,
      total_weight := (atts.map Attestation.weight).sum })

/-- Finalization, translated from `finalize_state` in
`contract-catalog/src/lib.rs` (lines 241-278): merge computed trust into the
contributor table max-wins, recompute attestation weights and total weights
from the updated table, then re-derive every entry's status. -/
def finalize_state (s : CatalogState) (threshold : Nat) : CatalogState :=
  let computed_trust := compute_trust_from_entries s threshold
  let contributors := computed_trust.foldl
    (fun cs p => alterAL p.1 (mergeTrustScore p.2 p.1) cs) s.contributors
  let entries := s.entries.map fun p =>
    (p.1, { p.2 with hash_variants := p.2.hash_variants.map (reweightVariant contributors) })
  let entries := entries.map fun p =>
    (p.1, { p.2 with status := derive_status p.2 threshold })
  ⟨entries, contributors⟩

/-- Per-variant part of the full-state merge: missing attestations from the
incoming variant are appended when their pubkey is absent, then the list is
re-sorted and the total weight recomputed. -/
def mergeVariant (bv : HashVariant) (ov : Option HashVariant) : HashVariant :=
  let a_variant := ov.getD ⟨bv.title, bv.description, bv.mini_snippet, [], 0⟩
  let merged := bv.attestations.foldl
    (fun l batt => if hasPubkey batt.contributor_pubkey l then l else l ++ [batt])
    a_variant.attestations
  let a_variant := { a_variant with attestations := sortAtts merged }
  { a_variant with
      total_weight := (a_variant.attestations.map Attestation.weight).sum }

/-- Per-entry part of the full-state merge: union the variants (attestations
deduplicated by pubkey, re-sorted, total weight recomputed), then merge the
entry scalars max/min-wins. -/
def mergeEntry (b_entry : CatalogEntry) (key : Bytes) (oe : Option CatalogEntry) :
    CatalogEntry :=
  let a_entry := oe.getD (defaultEntry key)
  let a_entry := b_entry.hash_variants.foldl
    (fun ae q =>
      { ae with hash_variants := alterAL q.1 (mergeVariant q.2) ae.hash_variants })
    a_entry
  { a_entry with
      size_bytes := max a_entry.size_bytes b_entry.size_bytes,
      version := maxVer a_entry.version b_entry.version,
      first_seen := min a_entry.first_seen b_entry.first_seen,
      last_seen := max a_entry.last_seen b_entry.last_seen }

def mergeContributor (bs : ContributorScore) (pk : Bytes)
    (o : Option ContributorScore) : ContributorScore :=
  let score := o.getD ⟨pk, 0, 0⟩
  { score with
      trust_score := max score.trust_score bs.trust_score,
      total_contributions := max score.total_contributions bs.total_contributions }

/-- Full-state merge, translated from `merge_catalog_states` in
`contract-catalog/src/lib.rs` (lines 60-124). -/
def merge_catalog_states (a : CatalogState) (b : CatalogState) : CatalogState :=
  let entries := b.entries.foldl
    (fun es p => alterAL p.1 (mergeEntry p.2 p.1) es) a.entries
  let contributors := b.contributors.foldl
    (fun cs p => alterAL p.1 (mergeContributor p.2 p.1) cs) a.contributors
  ⟨entries, contributors⟩

/-- The update payloads of `Contract::update_state`, after CBOR decoding:
`UpdateData::Delta` bytes decode either to one `CatalogDelta` or to a batch
`Vec<CatalogDelta>`, `UpdateData::State` carries a full state, and every
other `UpdateData` variant is silently ignored. -/
inductive UpdateData
  | delta (d : CatalogDelta)
  | deltaBatch (ds : List CatalogDelta)
  | stateMerge (s : CatalogState)
  | unknown
deriving DecidableEq

/-- Processing of a single update item inside the loop of
`Contract::update_state` (lines 329-355): deltas are validated then applied,
full states are merged, other variants are ignored. -/
def apply_one (s : CatalogState) (u : UpdateData) : Except CErr CatalogState :=
  match u with
  | .delta d =>
      match validate_delta d with
      | .error e => .error e
      | .ok _ => .ok (apply_delta_to_state s d)
  | .deltaBatch ds =>
      ds.foldlM (fun st d =>
        match validate_delta d with
        | .error e => .error e
        | .ok _ => .ok (apply_delta_to_state st d)) s
  | .stateMerge o => .ok (merge_catalog_states s o)
  | .unknown => .ok s

/-- Catalog `Contract::update_state` (lines 319-362): apply all updates in
order (all-or-nothing), then run finalization exactly once with the
parameter `confirmation_weight_threshold`. -/
def update_state (threshold : Nat) (s : CatalogState) (data : List UpdateData) :
    Except CErr CatalogState :=
  match data.foldlM apply_one s with
  | .error e => .error e
  | .ok s' => .ok (finalize_state s' threshold)

/-- Duplicate-pubkey detection as in the `HashSet` loop of
`Contract::validate_state` (lines 302-307). -/
def has_dup_pubkey : List Attestation → Bool
  | [] => false
  | a :: rest => hasPubkey a.contributor_pubkey rest || has_dup_pubkey rest

/-- Catalog `Contract::validate_state` (lines 282-317): the decoded state is
Valid iff every entry has a non-empty `contract_key` and every variant's key
matches the metadata hash of its texts, has no duplicate attestation pubkey,
and stores `total_weight` equal to the `u32` sum of its attestation weights —
the source sums into a `u32` (line 309), which wraps modulo `2 ^ 32` in
release builds, so the sum is reduced modulo `2 ^ 32` here. -/
def validate_state (s : CatalogState) : Except CErr Unit :=
  if s.entries.all (fun p =>
      decide (p.2.contract_key ≠ []) &&
      p.2.hash_variants.all (fun q =>
        decide (q.1 = metadata_hash q.2.title q.2.description q.2.mini_snippet) &&
        !(has_dup_pubkey q.2.attestations) &&
        decide (q.2.total_weight =
          (q.2.attestations.map Attestation.weight).sum % 2 ^ 32)))
  then .ok () else .error .invalidState

end ContractCatalog

namespace SearchCommon

/-- Big-endian 4-byte encoding of a `u32`, as in `u32::to_be_bytes`. -/
def be32 (n : Nat) : Bytes :=
  [n / 2 ^ 24 % 256, n / 2 ^ 16 % 256, n / 2 ^ 8 % 256, n % 256]

/-- Bloom filter with `K = 7` hash functions (`search-common/src/bloom.rs`).
`bits` is the byte vector, `num_bits` the logical bit length. -/
structure BloomFilter where
  bits : Bytes
  num_bits : Nat
deriving DecidableEq

/-- Fresh filter: `num_bits.div_ceil(8)` zero bytes. -/
def BloomFilter.new (num_bits : Nat) : BloomFilter :=
  ⟨List.replicate ((num_bits + 7) / 8) 0, num_bits⟩

/-- The i-th bloom position; the source computes the big-endian `u64` of the
first 8 bytes of `sha256([i] ++ item)` and reduces it modulo `num_bits`.
The SHA-256-derived `u64` is abstracted as the function parameter `hf`. -/
def hash_position (hf : Nat → Bytes → Nat) (bf : BloomFilter) (item : Bytes)
    (i : Nat) : Nat :=
  hf i item % bf.num_bits

/-- Set one bit of the byte vector, guarded by `byte_idx < bits.len()` as the
source is. -/
def setBit (bits : Bytes) (pos : Nat) : Bytes :=
  let byte_idx := pos / 8
  let bit_idx := pos % 8
  if byte_idx < bits.length then
    bits.set byte_idx (bits.getD byte_idx 0 ||| 1 <<< bit_idx)
  else bits

/-- `BloomFilter::insert`: set the 7 hash positions of the item. -/
def BloomFilter.insertItem (hf : Nat → Bytes → Nat) (bf : BloomFilter)
    (item : Bytes) : BloomFilter :=
  (List.range 7).foldl
    (fun b i => { b with bits := setBit b.bits (hash_position hf b item i) }) bf

/-- `BloomFilter::contains`: every one of the 7 hash positions is in range
and set. -/
def BloomFilter.containsItem (hf : Nat → Bytes → Nat) (bf : BloomFilter)
    (item : Bytes) : Bool :=
  (List.range 7).all fun i =>
    let pos := hash_position hf bf item i
    decide (pos / 8 < bf.bits.length) &&
    decide (bf.bits.getD (pos / 8) 0 &&& 1 <<< (pos % 8) ≠ 0)

theorem setBit_length (bits : Bytes) (pos : Nat) :
    (setBit bits pos).length = bits.length := by
  unfold setBit
  simp only []
  split <;> simp

theorem getD_set_self {bits : Bytes} {i : Nat} (h : i < bits.length) (v : Nat) :
    (bits.set i v).getD i 0 = v := by
  simp [List.getD, List.getElem?_set_self', h]

theorem getD_set_ne {bits : Bytes} {i j : Nat} (h : i ≠ j) (v : Nat) :
    (bits.set i v).getD j 0 = bits.getD j 0 := by
  simp [List.getD, List.getElem?_set_ne h]

theorem and_shift_ne_zero_iff (a k : Nat) : a &&& 1 <<< k ≠ 0 ↔ a.testBit k := by
  rw [Nat.shiftLeft_eq, one_mul, Nat.and_two_pow]
  rcases h : a.testBit k with hf | ht
  · simp [h]
  · simp only [h, Bool.toNat_true, one_mul]
    constructor
    · intro _
      trivial
    · intro _
      exact (Nat.pos_pow_of_pos k (by norm_num)).ne'

/-- One bit of the byte vector is in range and set. -/
def bitIsSet (bits : Bytes) (pos : Nat) : Prop :=
  pos / 8 < bits.length ∧ bits.getD (pos / 8) 0 &&& 1 <<< (pos % 8) ≠ 0

theorem bitIsSet_setBit_of (bits : Bytes) (p q : Nat) (h : bitIsSet bits q) :
    bitIsSet (setBit bits p) q := by
  obtain ⟨hq, hbit⟩ := h
  unfold setBit
  by_cases hp : p / 8 < bits.length
  · simp only [if_pos hp]
    refine ⟨by simpa using hq, ?_⟩
    by_cases hb : p / 8 = q / 8
    · rw [← hb, getD_set_self hp]
      rw [and_shift_ne_zero_iff] at hbit ⊢
      rw [← hb] at hbit
      rw [Nat.testBit_or, hbit]
      simp
    · rw [getD_set_ne hb]
      exact hbit
  · simp only [if_neg hp]
    exact ⟨hq, hbit⟩

theorem bitIsSet_setBit_self (bits : Bytes) (p : Nat) (h : p / 8 < bits.length) :
    bitIsSet (setBit bits p) p := by
  unfold setBit
  simp only [if_pos h]
  refine ⟨by simpa using h, ?_⟩
  rw [getD_set_self h, and_shift_ne_zero_iff]
  simp [Nat.testBit_or, Nat.shiftLeft_eq, Nat.testBit_two_pow_self]

/-- Invariant of every filter the code builds: the byte vector has
`num_bits.div_ceil(8)` bytes and the bit length is positive. -/
def BloomFilter.wf (bf : BloomFilter) : Prop :=
  bf.bits.length = (bf.num_bits + 7) / 8 ∧ 0 < bf.num_bits

theorem insertItem_spec (hf : Nat → Bytes → Nat) (item : Bytes) :
    ∀ (l : List Nat) (bf : BloomFilter),
      (l.foldl (fun b i => { b with bits := setBit b.bits (hash_position hf b item i) }) bf).num_bits
          = bf.num_bits ∧
      (l.foldl (fun b i => { b with bits := setBit b.bits (hash_position hf b item i) }) bf).bits.length
          = bf.bits.length ∧
      (∀ q, bitIsSet bf.bits q →
        bitIsSet (l.foldl (fun b i => { b with bits := setBit b.bits (hash_position hf b item i) }) bf).bits q) ∧
      (bf.wf → ∀ i ∈ l,
        bitIsSet (l.foldl (fun b i => { b with bits := setBit b.bits (hash_position hf b item i) }) bf).bits
          (hf i item % bf.num_bits))
  | [], bf => by
      refine ⟨rfl, rfl, fun q h => h, ?_⟩
      intro _ i hi
      simp at hi
  | a :: l, bf => by
      obtain ⟨hnb, hlen, hpres, hsets⟩ :=
        insertItem_spec hf item l { bf with bits := setBit bf.bits (hash_position hf bf item a) }
      refine ⟨by simpa using hnb, by simpa [setBit_length] using hlen, ?_, ?_⟩
      · intro q hq
        exact hpres q (bitIsSet_setBit_of _ _ _ hq)
      · rintro ⟨hwf1, hwf2⟩ i hi
        have hbyte : hf a item % bf.num_bits / 8 < bf.bits.length := by
          have hlt : hf a item % bf.num_bits < bf.num_bits := Nat.mod_lt _ hwf2
          rw [hwf1]
          omega
        rcases List.mem_cons.1 hi with rfl | hmem
        · exact hpres _ (bitIsSet_setBit_self _ _ (by
            simpa [hash_position] using hbyte))
        · have := hsets ⟨by simpa [setBit_length] using hwf1, by simpa using hwf2⟩ i hmem
          simpa [hash_position] using this

theorem insertItem_num_bits (hf : Nat → Bytes → Nat) (bf : BloomFilter) (x : Bytes) :
    (bf.insertItem hf x).num_bits = bf.num_bits :=
  (insertItem_spec hf x (List.range 7) bf).1

theorem insertItem_bits_length (hf : Nat → Bytes → Nat) (bf : BloomFilter) (x : Bytes) :
    (bf.insertItem hf x).bits.length = bf.bits.length :=
  (insertItem_spec hf x (List.range 7) bf).2.1

theorem hash_position_insertItem (hf : Nat → Bytes → Nat) (bf : BloomFilter)
    (x y : Bytes) (i : Nat) :
    hash_position hf (bf.insertItem hf y) x i = hash_position hf bf x i := by
  unfold hash_position
  rw [insertItem_num_bits]

theorem insertItem_wf (hf : Nat → Bytes → Nat) (bf : BloomFilter) (x : Bytes)
    (h : bf.wf) : (bf.insertItem hf x).wf := by
  obtain ⟨h1, h2⟩ := h
  constructor
  · rw [insertItem_bits_length, insertItem_num_bits, h1]
  · rw [insertItem_num_bits]
    exact h2

theorem containsItem_iff (hf : Nat → Bytes → Nat) (bf : BloomFilter) (x : Bytes) :
    bf.containsItem hf x = true ↔
      ∀ i ∈ List.range 7, bitIsSet bf.bits (hash_position hf bf x i) := by
  simp [BloomFilter.containsItem, bitIsSet, List.all_eq_true]

theorem containsItem_insertItem_mono (hf : Nat → Bytes → Nat) (bf : BloomFilter)
    (x y : Bytes) (h : bf.containsItem hf x = true) :
    (bf.insertItem hf y).containsItem hf x = true := by
  rw [containsItem_iff] at h ⊢
  intro i hi
  rw [hash_position_insertItem]
  exact (insertItem_spec hf y (List.range 7) bf).2.2.1 _ (h i hi)

theorem containsItem_insertItem_self (hf : Nat → Bytes → Nat) (bf : BloomFilter)
    (x : Bytes) (h : bf.wf) : (bf.insertItem hf x).containsItem hf x = true := by
  rw [containsItem_iff]
  intro i hi
  rw [hash_position_insertItem]
  exact (insertItem_spec hf x (List.range 7) bf).2.2.2 h i hi

attribute [irreducible] BloomFilter.insertItem

theorem containsItem_foldl_mono {α : Type} (hf : Nat → Bytes → Nat)
    (keyf : α → Bytes) (l : List α) (bf : BloomFilter) (x : Bytes)
    (h : bf.containsItem hf x = true) :
    (l.foldl (fun b a => b.insertItem hf (keyf a)) bf).containsItem hf x = true := by
  induction l generalizing bf with
  | nil => exact h
  | cons a l ih =>
      rw [List.foldl_cons]
      exact ih _ (containsItem_insertItem_mono hf bf x _ h)

theorem containsItem_foldl_insert {α : Type} (hf : Nat → Bytes → Nat)
    (keyf : α → Bytes) (l : List α) (bf : BloomFilter) (hwf : bf.wf) :
    ∀ a ∈ l, (l.foldl (fun b a => b.insertItem hf (keyf a)) bf).containsItem hf (keyf a) = true := by
  induction l generalizing bf with
  | nil => intro a ha; simp at ha
  | cons b l ih =>
      intro a ha
      rw [List.foldl_cons]
      rcases List.mem_cons.1 ha with rfl | hmem
      · exact containsItem_foldl_mono hf keyf l _ _
          (containsItem_insertItem_self hf bf _ hwf)
      · exact ih _ (insertItem_wf hf bf _ hwf) a hmem

end SearchCommon

namespace ContractCatalog

open SearchCommon

/-- Bloom fingerprint of a catalog entry, translated from `bloom_key` in
`contract-catalog/src/lib.rs` (lines 22-34): contract key, then the hash of
the variant with the largest `total_weight` (`max_by_key` keeps the last,
i.e. largest, hash on ties; `([0u8; 32], 0)` when there are no variants),
then the big-endian weight. -/
def bloom_key (e : CatalogEntry) : Bytes :=
  match max_by_key_last (fun p => p.2.total_weight) e.hash_variants with
  | some p => e.contract_key ++ p.1 ++ be32 p.2.total_weight
  | none => e.contract_key ++ List.replicate 32 0 ++ be32 0

/-- Catalog `Contract::summarize_state` (lines 364-378): insert every
entry's fingerprint into a fresh 8192-bit filter.  (Serialization of the
filter to CBOR bytes is not modelled; `get_state_delta` receives the
filter itself.) -/
def summarize_state (hf : Nat → Bytes → Nat) (s : CatalogState) : BloomFilter :=
  s.entries.foldl (fun b p => b.insertItem hf (bloom_key p.2)) (BloomFilter.new 8192)

/-- Re-expansion of one missing entry into one `CatalogDelta` per
attestation, as in the inner loops of `Contract::get_state_delta`
(lines 392-416); the hash is recomputed from the variant texts. -/
def expand_entry (e : CatalogEntry) : List CatalogDelta :=
  e.hash_variants.foldl (fun acc q =>
    acc ++ q.2.attestations.map (fun att =>
      { contract_key := e.contract_key
        title := q.2.title
        description := q.2.description
        mini_snippet := q.2.mini_snippet
        snippet := q.2.mini_snippet
        size_bytes := e.size_bytes
        version := e.version
        metadata_hash := metadata_hash q.2.title q.2.description q.2.mini_snippet
        attestation := att })) []

/-- Catalog `Contract::get_state_delta` (lines 380-423): re-expand every
entry whose fingerprint the summary does not contain. -/
def get_state_delta (hf : Nat → Bytes → Nat) (s : CatalogState)
    (summary : BloomFilter) : List CatalogDelta :=
  s.entries.foldl (fun acc p =>
    if summary.containsItem hf (bloom_key p.2) then acc
    else acc ++ expand_entry p.2) []

end ContractCatalog

namespace ContractShard

open SearchCommon ContractCatalog

/-- A term entry in the inverted index (`search-common/src/types.rs`). -/
structure TermEntry where
  contract_key : Bytes
  snippet : Bytes
  tf_idf_score : Nat
deriving DecidableEq

/-- A single entry in a shard delta (`search-common/src/types.rs`). -/
structure ShardDeltaEntry where
  word : Bytes
  contract_key : Bytes
  snippet : Bytes
  tf_idf_score : Nat
deriving DecidableEq

/-- Delta for updating a FullTextShard (`search-common/src/types.rs`). -/
structure ShardDelta where
  entries : List ShardDeltaEntry
  antiflood_token : AntifloodToken
deriving DecidableEq

/-- Full state of a FullTextShard contract; the `BTreeMap` index is the
usual key-ordered association list. -/
structure ShardState where
  shard_id : Nat
  index : List (Bytes × List TermEntry)
deriving DecidableEq

/-- The fixed shard count of `contract-fulltext-shard/src/lib.rs`. -/
def SHARD_COUNT : Nat := 16

/-- Term-to-shard assignment from `search-common/src/hashing.rs`
(`shard_for_word`): the source takes the big-endian `u32` of the first four
bytes of `sha256(word)` and reduces it modulo `shard_count`; the
SHA-256-derived `u32` value is abstracted as the parameter `hw`. -/
def shard_for_word (hw : Bytes → Nat) (word : Bytes) (shard_count : Nat) : Nat :=
  hw word % shard_count

/-- Shard delta validation, translated from `validate_shard_delta` in
`contract-fulltext-shard/src/lib.rs` (lines 30-43): non-empty nonce,
positive difficulty, and every entry has a non-empty word routed to this
state's `shard_id`. -/
def validate_shard_delta (hw : Bytes → Nat) (state : ShardState)
    (delta : ShardDelta) : Except CErr Unit :=
  if delta.antiflood_token.nonce = [] ∨ delta.antiflood_token.difficulty = 0 then
    .error .invalidUpdate
  else if delta.entries.all (fun e =>
      decide (e.word ≠ []) &&
      decide (shard_for_word hw e.word SHARD_COUNT = state.shard_id)) then .ok ()
  else .error .invalidUpdate

/-- Ordering used by `entries.sort_by(|a, b| a.contract_key.cmp(&b.contract_key))`. -/
def termLe (a b : TermEntry) : Prop := a.contract_key ≤ b.contract_key

instance : DecidableRel termLe := fun a b =>
  inferInstanceAs (Decidable (a.contract_key ≤ b.contract_key))

/-- In-place upsert of one delta entry into a term's entry list: the first
entry with the same contract key keeps the max score (snippet follows a
strictly winning score); otherwise the entry is appended. -/
def upsert_term (de : ShardDeltaEntry) : List TermEntry → List TermEntry
  | [] => [⟨de.contract_key, de.snippet, de.tf_idf_score⟩]
  | e :: rest =>
    if e.contract_key = de.contract_key then
      (if e.tf_idf_score < de.tf_idf_score then
        { e with tf_idf_score := de.tf_idf_score, snippet := de.snippet }
      else e) :: rest
    else e :: upsert_term de rest

/-- Shard delta application, translated from `apply_shard_delta` in
`contract-fulltext-shard/src/lib.rs` (lines 45-66). -/
def apply_shard_delta (state : ShardState) (delta : ShardDelta) : ShardState :=
  let idx := delta.entries.foldl
    (fun idx de =>
      alterAL de.word
        (fun o => List.insertionSort termLe (upsert_term de (o.getD []))) idx)
    state.index
  { state with index := idx }

end ContractShard

namespace SearchCommon

/-- Fuel-bounded floor of the base-2 logarithm: `log2p 64` agrees with
`⌊log₂⌋` on every `u64` value (see `log2_u64_bounds`), and 64 steps model
`64 - leading_zeros` exactly on that range. -/
def log2p : Nat → Nat → Nat
  | 0, _ => 0
  | fuel + 1, n => if n ≤ 1 then 0 else log2p fuel (n / 2) + 1

/-- Floor of log₂ on `u64` values. -/
def log2_u64 (n : Nat) : Nat := log2p 64 n

theorem log2p_bounds : ∀ (fuel n : Nat), 1 ≤ n → n < 2 ^ fuel →
    2 ^ log2p fuel n ≤ n ∧ n < 2 ^ (log2p fuel n + 1)
  | 0, n, h1, h2 => by omega
  | fuel + 1, n, h1, h2 => by
      by_cases hn : n ≤ 1
      · have : n = 1 := le_antisymm hn h1
        subst this
        simp [log2p]
      · have h1' : 1 ≤ n / 2 := by omega
        have h2' : n / 2 < 2 ^ fuel := by
          rw [pow_succ] at h2
          omega
        obtain ⟨hl, hr⟩ := log2p_bounds fuel (n / 2) h1' h2'
        rw [log2p, if_neg hn]
        constructor
        · rw [pow_succ]
          omega
        · rw [pow_succ]
          omega

/-- On `u64` values `log2_u64` is the floor of the base-2 logarithm. -/
theorem log2_u64_bounds (n : Nat) (h1 : 1 ≤ n) (h2 : n < 2 ^ 64) :
    2 ^ log2_u64 n ≤ n ∧ n < 2 ^ (log2_u64 n + 1) :=
  log2p_bounds 64 n h1 h2

/-- Scaled-log helper, translated from `integer_log2_scaled` in
`search-common/src/scoring.rs` (lines 26-38): for `x > 10000` the source
computes `bits = 64 - x.leading_zeros()`, i.e. `log2_u64 x + 1`, then two
saturating subtractions and the ×10000 scaling. -/
def integer_log2_scaled (x : Nat) : Nat :=
  if x ≤ 10000 then 0
  else (log2_u64 x + 1 - 1 - 13) * 10000

/-- Integer TF-IDF, translated from `integer_tf_idf` in
`search-common/src/scoring.rs` (lines 7-23).  All intermediate arithmetic is
`u64` and cannot overflow for `u32` inputs; the final `as u32` cast is the
explicit reduction modulo `2 ^ 32`. -/
def integer_tf_idf (term_count total_terms total_docs docs_with_term : Nat) : Nat :=
  if total_terms = 0 ∨ docs_with_term = 0 then 0
  else
    let tf := term_count * 10000 / total_terms
    let scaled := total_docs * 10000 / docs_with_term
    let idf := integer_log2_scaled scaled + 10000
    tf * idf / 10000 % 2 ^ 32

end SearchCommon

namespace WebContainer

open SearchCommon

/-- Ed25519-signed metadata for the web container state
(`web-container-contract/src/lib.rs`): a `u32` version and a 64-byte
signature. -/
structure WebContainerMetadata where
  version : Nat
  signature : Bytes
deriving DecidableEq

/-- Contract errors produced by the web container contract.  `other` and
`deser` carry human-readable strings in the source; `invalidUpdateWithInfo`
carries the reason string "New state version {new} must be higher than
current version {cur}", modelled by the two version numbers it interpolates. -/
inductive WebErr
  | other
  | deser
  | invalidState
  | invalidUpdate
  | invalidUpdateWithInfo (new_version current_version : Nat)
deriving DecidableEq

/-- Update payloads seen by `WebContainerContract::update_state`: only the
first element matters and only the `State` variant is accepted; `notState`
stands for every other `UpdateData` variant. -/
inductive WebUpdateData
  | state (bs : Bytes)
  | notState
deriving DecidableEq

/-- Frame reader shared by `update_state`: read the 8-byte big-endian
metadata length, then exactly that many metadata bytes; short reads are the
`Other` errors of the failing `read_u64`/`read_exact`. -/
def read_metadata_bytes (bs : Bytes) : Except WebErr Bytes :=
  if bs.length < 8 then .error .other
  else
    let msize := be64dec (bs.take 8)
    if (bs.drop 8).length < msize then .error .other
    else .ok ((bs.drop 8).take msize)

/-- Metadata of the current state as read by `update_state` (lines 101-117):
an empty state counts as version 0; CBOR decoding of the metadata object is
abstracted as the parameter `dm`. -/
def decode_current_version (dm : Bytes → Option WebContainerMetadata)
    (bs : Bytes) : Except WebErr Nat :=
  if bs = [] then .ok 0
  else
    match read_metadata_bytes bs with
    | .error e => .error e
    | .ok mb =>
      match dm mb with
      | none => .error .deser
      | some m => .ok m.version

/-- Metadata of a candidate new state as read by `update_state`
(lines 119-130). -/
def parse_meta (dm : Bytes → Option WebContainerMetadata) (bs : Bytes) :
    Except WebErr WebContainerMetadata :=
  match read_metadata_bytes bs with
  | .error e => .error e
  | .ok mb =>
    match dm mb with
    | none => .error .deser
    | some m => .ok m

/-- `WebContainerContract::update_state` (lines 96-142): read the current
version (empty state counts as 0), require the first update to be a full
state whose decoded version is strictly greater, and return the new state
bytes verbatim; a non-strict version yields `InvalidUpdateWithInfo`, and a
missing or non-`State` first update yields `InvalidUpdate`.  The signature
field of the decoded metadata is never consulted. -/
def update_state (dm : Bytes → Option WebContainerMetadata) (cur : Bytes)
    (data : List WebUpdateData) : Except WebErr Bytes :=
  match decode_current_version dm cur with
  | .error e => .error e
  | .ok cv =>
    match data.head? with
    | some (.state ns) =>
      match parse_meta dm ns with
      | .error e => .error e
      | .ok m =>
        if m.version ≤ cv then .error (.invalidUpdateWithInfo m.version cv)
        else .ok ns
    | _ => .error .invalidUpdate

end WebContainer

/-- Decidable equality of `Except` results, so that concrete contract runs
can be checked by `decide`. -/
instance {e a : Type} [DecidableEq e] [DecidableEq a] : DecidableEq (Except e a) := fun x y =>
  match x, y with
  | .ok u, .ok v =>
      if h : u = v then .isTrue (congrArg Except.ok h)
      else .isFalse (fun hc => h (Except.ok.inj hc))
  | .error u, .error v =>
      if h : u = v then .isTrue (congrArg Except.error h)
      else .isFalse (fun hc => h (Except.error.inj hc))
  | .ok _, .error _ => .isFalse (fun hc => Except.noConfusion hc)
  | .error _, .ok _ => .isFalse (fun hc => Except.noConfusion hc)

namespace Spec

open SearchCommon ContractCatalog

/-- Invariant I1 of the spec: for every variant, the map key equals
`H(title, description, mini_snippet)`. -/
def I1 (s : CatalogState) : Prop :=
  ∀ p ∈ s.entries, ∀ q ∈ p.2.hash_variants,
    q.1 = metadata_hash q.2.title q.2.description q.2.mini_snippet

/-- Invariant I2 of the spec: within any variant, no two attestations share
a contributor pubkey. -/
def I2 (s : CatalogState) : Prop :=
  ∀ p ∈ s.entries, ∀ q ∈ p.2.hash_variants,
    List.Pairwise (fun a b : Attestation =>
      a.contributor_pubkey ≠ b.contributor_pubkey) q.2.attestations

/-- Invariant I3 of the spec: `total_weight` equals the sum of attestation
weights. -/
def I3 (s : CatalogState) : Prop :=
  ∀ p ∈ s.entries, ∀ q ∈ p.2.hash_variants,
    q.2.total_weight = (q.2.attestations.map Attestation.weight).sum

/-- Invariant I3 as the code actually enforces it: `total_weight` equals
the sum of attestation weights reduced modulo `2 ^ 32` — the wrapping `u32`
sum the validator computes. -/
def I3_u32 (s : CatalogState) : Prop :=
  ∀ p ∈ s.entries, ∀ q ∈ p.2.hash_variants,
    q.2.total_weight = (q.2.attestations.map Attestation.weight).sum % 2 ^ 32

/-- Invariant I6 of the spec: every entry has a non-empty contract key. -/
def I6 (s : CatalogState) : Prop :=
  ∀ p ∈ s.entries, p.2.contract_key ≠ []

/-- The delta-acceptance condition exactly as claim C3 words it, hashing
`(title, description, mini_snippet)`. -/
def c3_claimed_ok (d : CatalogDelta) : Prop :=
  d.contract_key ≠ [] ∧ d.title.length ≤ 256 ∧ d.description.length ≤ 1024 ∧
  d.attestation.antiflood_token.nonce ≠ [] ∧
  1 ≤ d.attestation.antiflood_token.difficulty ∧
  d.attestation.contributor_pubkey ≠ List.replicate 32 0 ∧
  d.attestation.token_created_at ≠ 0 ∧
  d.metadata_hash = metadata_hash d.title d.description d.mini_snippet

/-- The delta-acceptance condition amended to what the code checks: the
hash covers the delta's `snippet` field, not its `mini_snippet` field. -/
def c3_amended_ok (d : CatalogDelta) : Prop :=
  d.contract_key ≠ [] ∧ d.title.length ≤ 256 ∧ d.description.length ≤ 1024 ∧
  d.attestation.antiflood_token.nonce ≠ [] ∧
  1 ≤ d.attestation.antiflood_token.difficulty ∧
  d.attestation.contributor_pubkey ≠ List.replicate 32 0 ∧
  d.attestation.token_created_at ≠ 0 ∧
  d.metadata_hash = metadata_hash d.title d.description d.snippet

end Spec

namespace ContractCatalog

theorem has_dup_pubkey_eq_false_iff (l : List Attestation) :
    has_dup_pubkey l = false ↔
      List.Pairwise (fun a b : Attestation =>
        a.contributor_pubkey ≠ b.contributor_pubkey) l := by
  induction l with
  | nil => simp [has_dup_pubkey]
  | cons a rest ih =>
      simp only [has_dup_pubkey, hasPubkey, Bool.or_eq_false_iff, ih,
        List.pairwise_cons, List.any_eq_false, decide_eq_true_eq]
      constructor
      · rintro ⟨h1, h2⟩
        exact ⟨fun b hb => fun hc => h1 b hb hc.symm, h2⟩
      · rintro ⟨h1, h2⟩
        exact ⟨fun b hb => fun hc => h1 b hb hc.symm, h2⟩

end ContractCatalog

/-- Decodable state on which claim C2 and the code disagree: one variant
with two distinct-pubkey attestations of weight `2 ^ 31` each and stored
`total_weight = 0`.  The validator's `u32` sum wraps to `0` and accepts it,
while I3 as claimed (an exact sum, `2 ^ 32`) is violated. -/
def c2cex : ContractCatalog.CatalogState :=
  { entries := [([97],
      { contract_key := [97]
        hash_variants := [(SearchCommon.metadata_hash [] [] [],
          { title := []
            description := []
            mini_snippet := []
            attestations :=
              [{ contributor_pubkey := List.replicate 32 1
                 antiflood_token := { nonce := [0], difficulty := 1 }
                 token_created_at := 1
                 weight := 2 ^ 31 },
               { contributor_pubkey := List.replicate 32 2
                 antiflood_token := { nonce := [0], difficulty := 1 }
                 token_created_at := 1
                 weight := 2 ^ 31 }]
            total_weight := 0 })]
        size_bytes := 0
        version := none
        status := .pending
        first_seen := 0
        last_seen := 0 })]
    contributors := [] }

/-- C2 counterexample: `validate_state` accepts `c2cex` — its wrapping
`u32` weight sum is `2 ^ 32 % 2 ^ 32 = 0`, matching the stored
`total_weight` — although invariant I3 as claimed (exact equality with the
unbounded sum) fails there, refuting the claimed if-and-only-if. -/
theorem C2_counterexample :
    ContractCatalog.validate_state c2cex = .ok () ∧
      Spec.I1 c2cex ∧ Spec.I2 c2cex ∧ Spec.I6 c2cex ∧ ¬ Spec.I3 c2cex := by
  refine ⟨by decide, ?_, ?_, ?_, ?_⟩
  · unfold Spec.I1
    decide
  · unfold Spec.I2
    decide
  · unfold Spec.I6
    decide
  · unfold Spec.I3
    decide

/-- C2 amended: for every decoded catalog state, `validate_state` returns
Valid iff invariants I1, I2, I6 and the `u32` form of I3 — `total_weight`
equals the attestation-weight sum reduced modulo `2 ^ 32`, the wrapping
`u32` sum the source computes — all hold, and `InvalidState` otherwise.
(Decoding failure also yields `InvalidState` in the source; the CBOR
boundary itself is not modelled.) -/
theorem C2_validate_state_iff_invariants (s : ContractCatalog.CatalogState) :
    ContractCatalog.validate_state s = .ok () ↔
      Spec.I1 s ∧ Spec.I2 s ∧ Spec.I3_u32 s ∧ Spec.I6 s := by
  have key : (s.entries.all (fun p =>
      decide (p.2.contract_key ≠ []) &&
      p.2.hash_variants.all (fun q =>
        decide (q.1 = SearchCommon.metadata_hash q.2.title q.2.description q.2.mini_snippet) &&
        !(ContractCatalog.has_dup_pubkey q.2.attestations) &&
        decide (q.2.total_weight =
          (q.2.attestations.map ContractCatalog.Attestation.weight).sum % 2 ^ 32)))) = true ↔
      Spec.I1 s ∧ Spec.I2 s ∧ Spec.I3_u32 s ∧ Spec.I6 s := by
    simp only [List.all_eq_true, Bool.and_eq_true, decide_eq_true_eq,
      Bool.not_eq_true', ContractCatalog.has_dup_pubkey_eq_false_iff,
      Spec.I1, Spec.I2, Spec.I3_u32, Spec.I6]
    constructor
    · intro h
      refine ⟨fun p hp q hq => ((h p hp).2 q hq).1.1,
        fun p hp q hq => ((h p hp).2 q hq).1.2,
        fun p hp q hq => ((h p hp).2 q hq).2,
        fun p hp => (h p hp).1⟩
    · rintro ⟨h1, h2, h3, h6⟩
      intro p hp
      exact ⟨h6 p hp, fun q hq => ⟨⟨h1 p hp q hq, h2 p hp q hq⟩, h3 p hp q hq⟩⟩
  unfold ContractCatalog.validate_state
  split_ifs with h
  · exact iff_of_true rfl (key.1 h)
  · exact iff_of_false (by simp) (fun hx => h (key.2 hx))

/-- Concrete delta on which claim C3 and the code disagree: its
`metadata_hash` is the hash of `(title, description, mini_snippet)`, so the
claimed condition holds, yet `validate_delta` rejects it because the code
hashes `(title, description, snippet)` and `snippet ≠ mini_snippet` here. -/
def c3cex : ContractCatalog.CatalogDelta :=
  { contract_key := [99]
    title := [1]
    description := [2]
    mini_snippet := [3]
    snippet := [4]
    size_bytes := 0
    version := none
    metadata_hash := SearchCommon.metadata_hash [1] [2] [3]
    attestation :=
      { contributor_pubkey := List.replicate 32 1
        antiflood_token := { nonce := [0], difficulty := 1 }
        token_created_at := 1
        weight := 0 } }

/-- C3 counterexample: a delta satisfying every condition of claim C3
(including `metadata_hash = H(title, description, mini_snippet)`) is
nevertheless rejected by `validate_delta`, refuting the claimed
if-and-only-if at this input. -/
theorem C3_counterexample :
    Spec.c3_claimed_ok c3cex ∧
      ContractCatalog.validate_delta c3cex = .error .invalidUpdate := by
  constructor
  · refine ⟨by decide, by decide, by decide, by decide, by decide, by decide,
      by decide, rfl⟩
  · decide

/-- C3 amended: a `CatalogDelta` passes `validate_delta` iff the claimed
conditions hold with the hash computed over the delta's `snippet` field
(instead of `mini_snippet`): non-empty contract key, title at most 256
bytes, description at most 1024 bytes, non-empty nonce, difficulty at least
1, pubkey not all-zero, non-zero creation time, and
`metadata_hash = H(title, description, snippet)`. -/
theorem C3_validate_delta_iff (d : ContractCatalog.CatalogDelta) :
    ContractCatalog.validate_delta d = .ok () ↔ Spec.c3_amended_ok d := by
  unfold ContractCatalog.validate_delta Spec.c3_amended_ok
  split_ifs with h1 h2 h3 h4 h5 h6 h7
  · simp [h1]
  · simp only [not_lt] at *
    exact iff_of_false (by simp) (fun hx => by omega)
  · exact iff_of_false (by simp) (fun hx => by omega)
  · rcases h4 with h4 | h4
    · exact iff_of_false (by simp) (fun hx => hx.2.2.2.1 h4)
    · exact iff_of_false (by simp) (fun hx => by omega)
  · exact iff_of_false (by simp) (fun hx => hx.2.2.2.2.2.1 h5)
  · exact iff_of_false (by simp) (fun hx => hx.2.2.2.2.2.2.1 h6)
  · exact iff_of_false (by simp) (fun hx => h7 hx.2.2.2.2.2.2.2)
  · push_neg at h4
    exact iff_of_true rfl ⟨h1, by omega, by omega, h4.1, by omega, h5, h6,
      not_not.1 h7⟩

namespace Spec

open ContractCatalog

/-- The status formula exactly as claim C4 words it: `best` is the largest
attestation count, `second` the next largest (0 if absent); Disputed when
`best ≥ threshold` and `second · 100 > best · 30`, Confirmed when
`best ≥ threshold` otherwise, else Pending. -/
def claimed_status (counts : List Nat) (threshold : Nat) : Status :=
  let sorted := List.insertionSort (fun a b : Nat => b ≤ a) counts
  let best := sorted.head?.getD 0
  let second := (sorted.drop 1).head?.getD 0
  if threshold ≤ best ∧ best * 30 < second * 100 then .disputed
  else if threshold ≤ best then .confirmed
  else .pending

end Spec

namespace ContractCatalog

/-- The `second > 0` guard in `derive_status` is redundant, so the code's
status agrees with the claimed formula on every entry. -/
theorem status_formula_eq (best second threshold : Nat) :
    (if threshold ≤ best then
      if 0 < second ∧ best * 30 < second * 100 then Status.disputed
      else Status.confirmed
    else Status.pending) =
    (if threshold ≤ best ∧ best * 30 < second * 100 then Status.disputed
    else if threshold ≤ best then Status.confirmed else Status.pending) := by
  by_cases hb : threshold ≤ best
  · by_cases hd : best * 30 < second * 100
    · have h0 : 0 < second := by omega
      rw [if_pos hb, if_pos ⟨h0, hd⟩, if_pos ⟨hb, hd⟩]
    · rw [if_pos hb, if_neg (fun hc => hd hc.2), if_neg (fun hc => hd hc.2),
        if_pos hb]
  · rw [if_neg hb, if_neg (fun hc => hb hc.1), if_neg hb]

theorem derive_status_eq_claimed (e : CatalogEntry) (threshold : Nat) :
    derive_status e threshold =
      Spec.claimed_status (e.hash_variants.map fun p => p.2.attestations.length)
        threshold :=
  status_formula_eq _ _ threshold

end ContractCatalog

/-- C4: whenever `update_state` succeeds, every entry of the returned
(finalized) state carries exactly the status given by the claimed formula of
its variants' attestation counts. -/
theorem C4_status_after_update (threshold : Nat) (s : ContractCatalog.CatalogState)
    (data : List ContractCatalog.UpdateData) (s' : ContractCatalog.CatalogState)
    (h : ContractCatalog.update_state threshold s data = .ok s') :
    ∀ p ∈ s'.entries, p.2.status =
      Spec.claimed_status (p.2.hash_variants.map fun q => q.2.attestations.length)
        threshold := by
  unfold ContractCatalog.update_state at h
  rcases hfold : data.foldlM ContractCatalog.apply_one s with e | sm
  · rw [hfold] at h
    exact absurd h (by simp)
  · rw [hfold] at h
    have hs' : s' = ContractCatalog.finalize_state sm threshold := by
      have := Except.ok.inj h
      exact this.symm
    subst hs'
    intro p hp
    unfold ContractCatalog.finalize_state at hp
    simp only [List.mem_map] at hp
    obtain ⟨q, hq, hpq⟩ := hp
    subst hpq
    simp only []
    rw [ContractCatalog.derive_status_eq_claimed]

/-- Input used to witness C4: a single valid delta applied to the empty
state with threshold 1. -/
def c4wd : ContractCatalog.CatalogDelta :=
  { contract_key := [97]
    title := [116]
    description := [100]
    mini_snippet := [109]
    snippet := [115]
    size_bytes := 10
    version := some 1
    metadata_hash := SearchCommon.metadata_hash [116] [100] [115]
    attestation :=
      { contributor_pubkey := List.replicate 32 2
        antiflood_token := { nonce := [7], difficulty := 1 }
        token_created_at := 5
        weight := 0 } }

/-- The state produced by the C4 witness run. -/
def c4res : ContractCatalog.CatalogState :=
  (ContractCatalog.update_state 1 ⟨[], []⟩ [.delta c4wd]).toOption.getD ⟨[], []⟩

/-- Witness for C4: a concrete successful update on which the theorem's
hypothesis is discharged by evaluation. -/
theorem C4_status_after_update_witness :
    ContractCatalog.update_state 1 ⟨[], []⟩ [.delta c4wd] = .ok c4res ∧
      ∀ p ∈ c4res.entries, p.2.status =
        Spec.claimed_status (p.2.hash_variants.map fun q => q.2.attestations.length) 1 :=
  ⟨by decide, C4_status_after_update 1 ⟨[], []⟩ [.delta c4wd] c4res (by decide)⟩

namespace SearchCommon

theorem foldl_skip_of_contained {α β : Type} (c : α → Bool) (e : α → List β) :
    ∀ (l : List α) (acc : List β), (∀ a ∈ l, c a = true) →
      l.foldl (fun ac a => if c a then ac else ac ++ e a) acc = acc
  | [], acc, _ => rfl
  | a :: l, acc, h => by
      rw [List.foldl_cons, if_pos (h a (List.mem_cons_self a l))]
      exact foldl_skip_of_contained c e l acc (fun x hx => h x (List.mem_cons_of_mem a hx))

end SearchCommon

/-- C5: for every decoded catalog state and every bloom hash family `hf`,
the summary of a state contains the fingerprint of each of its entries, so
`get_state_delta` applied to the state and its own summary re-expands
nothing and returns the empty delta. -/
theorem C5_diff_of_own_summary_empty (hf : Nat → Bytes → Nat)
    (s : ContractCatalog.CatalogState) :
    (∀ p ∈ s.entries, (ContractCatalog.summarize_state hf s).containsItem hf
        (ContractCatalog.bloom_key p.2) = true) ∧
      ContractCatalog.get_state_delta hf s (ContractCatalog.summarize_state hf s) = [] := by
  have hwf : (SearchCommon.BloomFilter.new 8192).wf := by
    constructor
    · show (List.replicate ((8192 + 7) / 8) (0 : Nat)).length = (8192 + 7) / 8
      exact List.length_replicate _ _
    · show (0 : Nat) < 8192
      norm_num
  have hcontain := SearchCommon.containsItem_foldl_insert hf
    (fun p : Bytes × ContractCatalog.CatalogEntry => ContractCatalog.bloom_key p.2)
    s.entries (SearchCommon.BloomFilter.new 8192) hwf
  refine ⟨hcontain, ?_⟩
  exact SearchCommon.foldl_skip_of_contained _ _ s.entries [] hcontain

/-- C7: a `ShardDelta` accepted by shard validation routes every entry to
this shard — each entry has a non-empty word with
`shard_for_word(word) = shard_id`, where the shard count is the fixed 16 —
and consequently applying the accepted delta to a state whose index keys all
hash to `shard_id` (invariant I4) leaves `shard_id` unchanged and preserves
I4 for every term key of the resulting index. -/
theorem C7_shard_delta_routing (hw : Bytes → Nat) (st : ContractShard.ShardState)
    (d : ContractShard.ShardDelta)
    (hacc : ContractShard.validate_shard_delta hw st d = .ok ()) :
    (∀ e ∈ d.entries, e.word ≠ [] ∧
      ContractShard.shard_for_word hw e.word ContractShard.SHARD_COUNT = st.shard_id) ∧
    ((∀ p ∈ st.index,
        ContractShard.shard_for_word hw p.1 ContractShard.SHARD_COUNT = st.shard_id) →
      (ContractShard.apply_shard_delta st d).shard_id = st.shard_id ∧
      ∀ p ∈ (ContractShard.apply_shard_delta st d).index,
        ContractShard.shard_for_word hw p.1 ContractShard.SHARD_COUNT = st.shard_id) := by
  have hentries : ∀ e ∈ d.entries, e.word ≠ [] ∧
      ContractShard.shard_for_word hw e.word ContractShard.SHARD_COUNT = st.shard_id := by
    unfold ContractShard.validate_shard_delta at hacc
    split_ifs at hacc with h1 h2
    · intro e he
      have := List.all_eq_true.1 h2 e he
      simp only [Bool.and_eq_true, decide_eq_true_eq] at this
      exact this
  refine ⟨hentries, fun hI4 => ⟨rfl, ?_⟩⟩
  have key : ∀ (l : List ContractShard.ShardDeltaEntry)
      (idx : List (Bytes × List ContractShard.TermEntry)),
      (∀ e ∈ l, ContractShard.shard_for_word hw e.word ContractShard.SHARD_COUNT
        = st.shard_id) →
      (∀ p ∈ idx, ContractShard.shard_for_word hw p.1 ContractShard.SHARD_COUNT
        = st.shard_id) →
      ∀ p ∈ l.foldl (fun idx de =>
          alterAL de.word (fun o =>
            List.insertionSort ContractShard.termLe
              (ContractShard.upsert_term de (o.getD []))) idx) idx,
        ContractShard.shard_for_word hw p.1 ContractShard.SHARD_COUNT = st.shard_id := by
    intro l
    induction l with
    | nil => intro idx _ hidx p hp; exact hidx p hp
    | cons de l ih =>
        intro idx hl hidx p hp
        rw [List.foldl_cons] at hp
        refine ih _ (fun e he => hl e (List.mem_cons_of_mem de he)) ?_ p hp
        intro q hq
        rcases mem_alterAL hq with hk | ⟨v, hv⟩
        · rw [hk]
          exact (hl de (List.mem_cons_self de l))
        · exact hidx (q.1, v) hv
  intro p hp
  exact key d.entries st.index (fun e he => (hentries e he).2) hI4 p hp

/-- Hash parameter used by the C7 witness: the word's first byte. -/
def c7hw (w : Bytes) : Nat := w.headD 0

/-- Shard delta used by the C7 witness: one entry whose word routes to
shard 3. -/
def c7delta : ContractShard.ShardDelta :=
  { entries := [{ word := [3], contract_key := [107], snippet := [], tf_idf_score := 5 }]
    antiflood_token := { nonce := [1], difficulty := 1 } }

/-- Witness for C7: a concrete accepted delta on shard 3, with the
acceptance hypothesis discharged by evaluation. -/
theorem C7_shard_delta_routing_witness :
    (∀ e ∈ c7delta.entries, e.word ≠ [] ∧
      ContractShard.shard_for_word c7hw e.word ContractShard.SHARD_COUNT = 3) ∧
    ((∀ p ∈ (⟨3, []⟩ : ContractShard.ShardState).index,
        ContractShard.shard_for_word c7hw p.1 ContractShard.SHARD_COUNT = 3) →
      (ContractShard.apply_shard_delta ⟨3, []⟩ c7delta).shard_id = 3 ∧
      ∀ p ∈ (ContractShard.apply_shard_delta ⟨3, []⟩ c7delta).index,
        ContractShard.shard_for_word c7hw p.1 ContractShard.SHARD_COUNT = 3) :=
  C7_shard_delta_routing c7hw ⟨3, []⟩ c7delta (by decide)

namespace Spec

open SearchCommon

/-- The spec's scaled term frequency: `tf = (count · 10000) / total_terms`. -/
def spec_tf (term_count total_terms : Nat) : Nat :=
  term_count * 10000 / total_terms

/-- The inverse document frequency exactly as claim C8 words it:
`idf = ⌊log₂(total_docs / docs_with_term)⌋ · 10000 + 10000`. -/
def claimed_idf (total_docs docs_with_term : Nat) : Nat :=
  log2_u64 (total_docs / docs_with_term) * 10000 + 10000

/-- The TF-IDF score exactly as claim C8 words it:
`score = (tf · idf) / 10000`. -/
def claimed_tf_idf (term_count total_terms total_docs docs_with_term : Nat) : Nat :=
  spec_tf term_count total_terms * claimed_idf total_docs docs_with_term / 10000

/-- The inverse document frequency the code actually computes: the floor
log₂ is taken of the scaled quotient `total_docs · 10000 / docs_with_term`
and 13 ≈ log₂ 10000 is subtracted (saturating), which can overestimate
`⌊log₂(total_docs / docs_with_term)⌋` by one. -/
def amended_idf (total_docs docs_with_term : Nat) : Nat :=
  let scaled := total_docs * 10000 / docs_with_term
  (if scaled ≤ 10000 then 0 else (log2_u64 scaled - 13) * 10000) + 10000

/-- The amended TF-IDF score: `(tf · idf) / 10000` truncated to `u32`, with
`idf` as the code computes it. -/
def amended_tf_idf (term_count total_terms total_docs docs_with_term : Nat) : Nat :=
  spec_tf term_count total_terms * amended_idf total_docs docs_with_term
    / 10000 % 2 ^ 32

end Spec

/-- C8 counterexample: at `term_count = 1, total_terms = 1, total_docs = 7,
docs_with_term = 1` the code returns 40000 — its log approximation gives
`⌊log₂ 70000⌋ - 13 = 3` — while the claimed formula with
`⌊log₂ 7⌋ = 2` gives 30000, refuting the claimed equality at this input. -/
theorem C8_counterexample :
    SearchCommon.integer_tf_idf 1 1 7 1 = 40000 ∧
      Spec.claimed_tf_idf 1 1 7 1 = 30000 ∧
      SearchCommon.integer_tf_idf 1 1 7 1 ≠ Spec.claimed_tf_idf 1 1 7 1 := by
  refine ⟨by decide, by decide, by decide⟩

/-- C8 amended: for positive `total_terms` and `docs_with_term`, the code
returns `(tf · idf) / 10000` truncated to `u32`, where
`tf = (term_count · 10000) / total_terms` and
`idf = (⌊log₂(total_docs · 10000 / docs_with_term)⌋ − 13) · 10000 + 10000`
when the scaled quotient exceeds 10000 and `10000` otherwise — an integer
approximation of the claimed `⌊log₂(total_docs / docs_with_term)⌋` form —
in exact integer arithmetic. -/
theorem C8_integer_tf_idf_amended (term_count total_terms total_docs docs_with_term : Nat)
    (h1 : 0 < total_terms) (h2 : 0 < docs_with_term) :
    SearchCommon.integer_tf_idf term_count total_terms total_docs docs_with_term =
      Spec.amended_tf_idf term_count total_terms total_docs docs_with_term := by
  unfold SearchCommon.integer_tf_idf Spec.amended_tf_idf Spec.amended_idf Spec.spec_tf
  rw [if_neg (by omega)]
  unfold SearchCommon.integer_log2_scaled
  by_cases hs : total_docs * 10000 / docs_with_term ≤ 10000
  · simp [hs]
  · simp [hs, Nat.add_sub_cancel]

/-- Witness for C8: the amended equation evaluated at a concrete input with
both hypotheses discharged. -/
theorem C8_integer_tf_idf_amended_witness :
    0 < 2 ∧ 0 < 2 ∧
      SearchCommon.integer_tf_idf 3 2 8 2 = Spec.amended_tf_idf 3 2 8 2 :=
  ⟨by decide, by decide, C8_integer_tf_idf_amended 3 2 8 2 (by decide) (by decide)⟩

/-- C6: with a parseable (or empty, counting as version 0) current state,
`update_state` of the web container succeeds exactly when the first update
is a full state whose decoded metadata version is strictly greater than the
current version, returning those bytes verbatim; a non-strict version is
rejected with `InvalidUpdateWithInfo` carrying both versions (the
human-readable reason). -/
theorem C6_web_update_version_monotonic
    (dm : Bytes → Option WebContainer.WebContainerMetadata) (cur : Bytes)
    (data : List WebContainer.WebUpdateData) (cv : Nat)
    (hcv : WebContainer.decode_current_version dm cur = .ok cv) :
    (∀ ns, WebContainer.update_state dm cur data = .ok ns ↔
      (data.head? = some (.state ns) ∧
        ∃ m, WebContainer.parse_meta dm ns = .ok m ∧ cv < m.version)) ∧
    (∀ ns m, data.head? = some (.state ns) →
      WebContainer.parse_meta dm ns = .ok m → m.version ≤ cv →
      WebContainer.update_state dm cur data =
        .error (.invalidUpdateWithInfo m.version cv)) := by
  constructor
  · intro ns
    unfold WebContainer.update_state
    rw [hcv]
    rcases hhead : data.head? with - | u
    · simp [hhead]
    · rcases u with bs | -
      · rcases hm : WebContainer.parse_meta dm bs with e | m
        · simp only [hhead, hm]
          constructor
          · intro hc
            exact absurd hc (by simp)
          · rintro ⟨hns, m', hm', hv'⟩
            obtain rfl : bs = ns := by
              injection hns with h1
              injection h1
            rw [hm] at hm'
            cases hm'
        · simp only [hhead, hm]
          by_cases hv : m.version ≤ cv
          · simp only [if_pos hv]
            constructor
            · intro hc
              exact absurd hc (by simp)
            · rintro ⟨hns, m', hm', hv'⟩
              obtain rfl : bs = ns := by
                injection hns with h1
                injection h1
              rw [hm] at hm'
              obtain rfl : m = m' := Except.ok.inj hm'
              omega
          · simp only [if_neg hv]
            constructor
            · intro hc
              obtain rfl : bs = ns := Except.ok.inj hc
              exact ⟨rfl, m, hm, by omega⟩
            · rintro ⟨hns, m', hm', hv'⟩
              obtain rfl : bs = ns := by
                injection hns with h1
                injection h1
              rfl
      · simp [hhead]
  · intro ns m hhead hm hv
    unfold WebContainer.update_state
    rw [hcv]
    simp only [hhead, hm, if_pos hv]

/-- Metadata decoder used by the web-container witnesses: metadata section
`[7]` is version 2, `[8]` is version 5, `[9]` is also version 5 but with a
different signature. -/
def c6dm (mb : Bytes) : Option WebContainer.WebContainerMetadata :=
  if mb = [7] then some ⟨2, List.replicate 64 0⟩
  else if mb = [8] then some ⟨5, List.replicate 64 0⟩
  else if mb = [9] then some ⟨5, List.replicate 64 1⟩
  else none

/-- Current state bytes for the web-container witnesses: an 8-byte length
prefix followed by the one-byte metadata section `[7]` (version 2). -/
def c6cur : Bytes := SearchCommon.be64 1 ++ [7]

/-- Candidate new state with version 5 and zero signature. -/
def c6new : Bytes := SearchCommon.be64 1 ++ [8]

/-- Candidate new state with version 5 and a different signature. -/
def c6new' : Bytes := SearchCommon.be64 1 ++ [9]

/-- Witness for C6: the theorem instantiated at a concrete parseable state,
its hypothesis discharged by evaluation. -/
theorem C6_web_update_version_monotonic_witness :
    (∀ ns, WebContainer.update_state c6dm c6cur [.state c6new] = .ok ns ↔
      (([WebContainer.WebUpdateData.state c6new].head? = some (.state ns)) ∧
        ∃ m, WebContainer.parse_meta c6dm ns = .ok m ∧ 2 < m.version)) ∧
    (∀ ns m, [WebContainer.WebUpdateData.state c6new].head? = some (.state ns) →
      WebContainer.parse_meta c6dm ns = .ok m → m.version ≤ 2 →
      WebContainer.update_state c6dm c6cur [.state c6new] =
        .error (.invalidUpdateWithInfo m.version 2)) :=
  C6_web_update_version_monotonic c6dm c6cur [.state c6new] 2 (by decide)

/-- C9: the web container's `update_state` never consults the signature —
for any current state and any two candidate new states whose metadata both
decode and agree on `version` (in particular, byte-identical states apart
from the 64 signature bytes), the outcomes coincide: both are accepted
returning their own bytes verbatim, or both are rejected with the same
error. -/
theorem C9_web_update_signature_independent
    (dm : Bytes → Option WebContainer.WebContainerMetadata) (cur : Bytes)
    (rest : List WebContainer.WebUpdateData) (bs₁ bs₂ : Bytes)
    (m₁ m₂ : WebContainer.WebContainerMetadata)
    (h₁ : WebContainer.parse_meta dm bs₁ = .ok m₁)
    (h₂ : WebContainer.parse_meta dm bs₂ = .ok m₂)
    (hv : m₁.version = m₂.version) :
    (WebContainer.update_state dm cur (.state bs₁ :: rest) = .ok bs₁ ∧
      WebContainer.update_state dm cur (.state bs₂ :: rest) = .ok bs₂) ∨
    (∃ e, WebContainer.update_state dm cur (.state bs₁ :: rest) = .error e ∧
      WebContainer.update_state dm cur (.state bs₂ :: rest) = .error e) := by
  unfold WebContainer.update_state
  rcases hcv : WebContainer.decode_current_version dm cur with e | cv
  · exact Or.inr ⟨e, rfl, rfl⟩
  · simp only [List.head?_cons, h₁, h₂]
    by_cases hle : m₁.version ≤ cv
    · refine Or.inr ⟨.invalidUpdateWithInfo m₁.version cv, ?_, ?_⟩
      · rw [if_pos hle]
      · rw [if_pos (hv ▸ hle), ← hv]
    · refine Or.inl ⟨?_, ?_⟩
      · rw [if_neg hle]
      · rw [if_neg (hv ▸ hle)]

/-- Witness for C9: two concrete candidate states that differ only in the
signature inside their metadata (decoder `c6dm`, versions both 5), with all
hypotheses discharged by evaluation. -/
theorem C9_web_update_signature_independent_witness :
    (WebContainer.update_state c6dm c6cur [.state c6new] = .ok c6new ∧
      WebContainer.update_state c6dm c6cur [.state c6new'] = .ok c6new') ∨
    (∃ e, WebContainer.update_state c6dm c6cur [.state c6new] = .error e ∧
      WebContainer.update_state c6dm c6cur [.state c6new'] = .error e) :=
  C9_web_update_signature_independent c6dm c6cur [] c6new c6new'
    ⟨5, List.replicate 64 0⟩ ⟨5, List.replicate 64 1⟩ (by decide) (by decide) rfl

/-- C10: the `mini_snippet` field of a `CatalogDelta` is dead: overwriting
it changes neither the validation verdict nor the applied state, and the
variant text stored by delta application is the delta's `snippet` field. -/
theorem C10_mini_snippet_ignored (s : ContractCatalog.CatalogState)
    (d : ContractCatalog.CatalogDelta) (x : Bytes) :
    ContractCatalog.validate_delta { d with mini_snippet := x } =
      ContractCatalog.validate_delta d ∧
    ContractCatalog.apply_delta_to_state s { d with mini_snippet := x } =
      ContractCatalog.apply_delta_to_state s d ∧
    (∀ w ov, (ContractCatalog.updateVariant d w ov).mini_snippet = d.snippet) := by
  refine ⟨by cases d; rfl, by cases d; rfl, ?_⟩
  intro w ov
  by_cases h : ContractCatalog.hasPubkey d.attestation.contributor_pubkey
      (ov.getD ContractCatalog.defaultVariant).attestations = true
  · simp [ContractCatalog.updateVariant, h]
  · simp [ContractCatalog.updateVariant, h]

namespace ContractCatalog

open SearchCommon

/-- Facts extracted from a successful delta validation that the
commutativity argument needs: the text-length bounds and the binding of the
hash to `(title, description, snippet)`. -/
theorem validate_delta_ok_facts {d : CatalogDelta}
    (h : validate_delta d = .ok ()) :
    d.title.length ≤ 256 ∧ d.description.length ≤ 1024 ∧
      d.metadata_hash = metadata_hash d.title d.description d.snippet := by
  unfold validate_delta at h
  split_ifs at h with h1 h2 h3 h4 h5 h6 h7
  exact ⟨by omega, by omega, not_not.1 h7⟩

/-- Right-commutation of the max-wins version merge. -/
theorem maxVer_right_comm (a b c : Option Nat) :
    maxVer (maxVer a b) c = maxVer (maxVer a c) b := by
  cases a <;> cases b <;> cases c <;> simp only [maxVer]
  all_goals first
    | exact congrArg some (sup_comm _ _)
    | exact congrArg some (sup_right_comm _ _ _)

/-- The attestation list a delta leaves on a variant: unchanged when the
pubkey is already present, otherwise the stably re-sorted append of the
delta's attestation with its recomputed weight. -/
def appliedAtts (d : CatalogDelta) (w : Nat) (A : List Attestation) :
    List Attestation :=
  if hasPubkey d.attestation.contributor_pubkey A then A
  else sortAtts (A ++ [{ d.attestation with weight := w }])

theorem updateVariant_eval (d : CatalogDelta) (w : Nat) (ov : Option HashVariant) :
    updateVariant d w ov =
      ⟨d.title, d.description, d.snippet,
        appliedAtts d w (ov.getD defaultVariant).attestations,
        ((appliedAtts d w (ov.getD defaultVariant).attestations).map
          Attestation.weight).sum⟩ := by
  unfold updateVariant appliedAtts
  by_cases h : hasPubkey d.attestation.contributor_pubkey
      (ov.getD defaultVariant).attestations = true
  · simp [h]
  · simp [h]

theorem hasPubkey_sortAtts (p : Bytes) (l : List Attestation) :
    hasPubkey p (sortAtts l) = hasPubkey p l :=
  any_sortAtts _ l

theorem hasPubkey_append_single (p : Bytes) (l : List Attestation) (a : Attestation) :
    hasPubkey p (l ++ [a]) =
      (hasPubkey p l || decide (a.contributor_pubkey = p)) := by
  simp [hasPubkey]

/-- Two pubkey-deduplicated insert-and-sort steps commute, provided equal
pubkeys force equal attestations. -/
theorem appliedAtts_comm (d₁ d₂ : CatalogDelta) (w₁ w₂ : Nat)
    (hatt : d₁.attestation.contributor_pubkey = d₂.attestation.contributor_pubkey →
      ({ d₁.attestation with weight := w₁ } : Attestation) =
        { d₂.attestation with weight := w₂ })
    (A : List Attestation) :
    appliedAtts d₂ w₂ (appliedAtts d₁ w₁ A) =
      appliedAtts d₁ w₁ (appliedAtts d₂ w₂ A) := by
  by_cases hpk : d₁.attestation.contributor_pubkey = d₂.attestation.contributor_pubkey
  · unfold appliedAtts
    rw [hatt hpk, hpk]
  · unfold appliedAtts
    by_cases h₁ : hasPubkey d₁.attestation.contributor_pubkey A = true <;>
      by_cases h₂ : hasPubkey d₂.attestation.contributor_pubkey A = true
    · simp only [if_pos h₁, if_pos h₂]
    · simp only [if_pos h₁, if_neg h₂]
      rw [if_pos (by
        rw [hasPubkey_sortAtts, hasPubkey_append_single]
        simp [h₁])]
    · simp only [if_neg h₁, if_pos h₂]
      rw [if_pos (by
        rw [hasPubkey_sortAtts, hasPubkey_append_single]
        simp [h₂])]
    · simp only [if_neg h₁, if_neg h₂]
      rw [if_neg (by
        rw [hasPubkey_sortAtts, hasPubkey_append_single]
        simp only [h₂, Bool.false_or, decide_eq_true_eq]
        intro hc
        exact hpk (by simpa using hc)),
        if_neg (by
        rw [hasPubkey_sortAtts, hasPubkey_append_single]
        simp only [h₁, Bool.false_or, decide_eq_true_eq]
        intro hc
        exact hpk ((by simpa using hc : d₂.attestation.contributor_pubkey =
          d₁.attestation.contributor_pubkey)).symm)]
      rw [sortAtts_append_singleton, sortAtts_idem, sortAtts_append_singleton,
        sortAtts_append_singleton, sortAtts_idem, sortAtts_append_singleton]
      refine insLast_comm ?_ (sortAtts A)
      intro hc
      exact hpk ((by simpa using hc : d₂.attestation.contributor_pubkey =
        d₁.attestation.contributor_pubkey)).symm

/-- The per-variant mutations of two deltas with the same metadata hash
commute once validity has pinned their texts to be equal. -/
theorem updateVariant_comm (d₁ d₂ : CatalogDelta) (w₁ w₂ : Nat)
    (ht : d₁.title = d₂.title) (hd : d₁.description = d₂.description)
    (hs : d₁.snippet = d₂.snippet)
    (hatt : d₁.attestation.contributor_pubkey = d₂.attestation.contributor_pubkey →
      ({ d₁.attestation with weight := w₁ } : Attestation) =
        { d₂.attestation with weight := w₂ })
    (ov : Option HashVariant) :
    updateVariant d₂ w₂ (some (updateVariant d₁ w₁ ov)) =
      updateVariant d₁ w₁ (some (updateVariant d₂ w₂ ov)) := by
  rw [updateVariant_eval d₁ w₁ ov, updateVariant_eval d₂ w₂ ov,
    updateVariant_eval, updateVariant_eval]
  simp only [Option.getD_some]
  rw [ht, hd, hs, appliedAtts_comm d₁ d₂ w₁ w₂ hatt]

theorem updateEntry_eval (d : CatalogDelta) (w : Nat) (oe : Option CatalogEntry) :
    updateEntry d w oe =
      ⟨(oe.getD (defaultEntry d.contract_key)).contract_key,
        alterAL d.metadata_hash (updateVariant d w)
          (oe.getD (defaultEntry d.contract_key)).hash_variants,
        max (oe.getD (defaultEntry d.contract_key)).size_bytes d.size_bytes,
        maxVer (oe.getD (defaultEntry d.contract_key)).version d.version,
        (oe.getD (defaultEntry d.contract_key)).status,
        min (oe.getD (defaultEntry d.contract_key)).first_seen
          d.attestation.token_created_at,
        max (oe.getD (defaultEntry d.contract_key)).last_seen
          d.attestation.token_created_at⟩ := rfl

/-- The per-entry mutations of two deltas on the same contract key commute:
the variant alterations commute (by hash case split) and every scalar field
is a max/min-wins update. -/
theorem updateEntry_comm (d₁ d₂ : CatalogDelta) (w₁ w₂ : Nat)
    (hk : d₁.contract_key = d₂.contract_key)
    (hvar : d₁.metadata_hash = d₂.metadata_hash →
      ∀ ov, updateVariant d₂ w₂ (some (updateVariant d₁ w₁ ov)) =
        updateVariant d₁ w₁ (some (updateVariant d₂ w₂ ov)))
    (oe : Option CatalogEntry) :
    updateEntry d₂ w₂ (some (updateEntry d₁ w₁ oe)) =
      updateEntry d₁ w₁ (some (updateEntry d₂ w₂ oe)) := by
  rw [updateEntry_eval d₁ w₁ oe, updateEntry_eval d₂ w₂ oe, updateEntry_eval,
    updateEntry_eval]
  simp only [Option.getD_some, hk]
  simp only [CatalogEntry.mk.injEq]
  refine ⟨trivial, ?_, ?_, ?_, trivial, ?_, ?_⟩
  · by_cases hh : d₁.metadata_hash = d₂.metadata_hash
    · rw [hh, alterAL_alterAL_same, alterAL_alterAL_same]
      exact congrArg (fun f => alterAL d₂.metadata_hash f _)
        (funext fun ov => hvar hh ov)
    · exact alterAL_comm_ne (fun hc => hh hc.symm) _ _ _
  · exact sup_right_comm _ _ _
  · exact maxVer_right_comm _ _ _
  · exact inf_right_comm _ _ _
  · exact sup_right_comm _ _ _

/-- Applying two valid deltas in either order produces the same state,
provided deltas that target the same contract key, metadata hash and
contributor pubkey agree on the attestation's token and creation time. -/
theorem apply_delta_comm (s : CatalogState) (d₁ d₂ : CatalogDelta)
    (hv₁ : validate_delta d₁ = .ok ()) (hv₂ : validate_delta d₂ = .ok ())
    (hagree : d₁.contract_key = d₂.contract_key →
      d₁.metadata_hash = d₂.metadata_hash →
      d₁.attestation.contributor_pubkey = d₂.attestation.contributor_pubkey →
      d₁.attestation.antiflood_token = d₂.attestation.antiflood_token ∧
        d₁.attestation.token_created_at = d₂.attestation.token_created_at) :
    apply_delta_to_state (apply_delta_to_state s d₁) d₂ =
      apply_delta_to_state (apply_delta_to_state s d₂) d₁ := by
  obtain ⟨hlt₁, hld₁, hhash₁⟩ := validate_delta_ok_facts hv₁
  obtain ⟨hlt₂, hld₂, hhash₂⟩ := validate_delta_ok_facts hv₂
  show (⟨alterAL d₂.contract_key
      (updateEntry d₂ (1 + ((lookupAL s.contributors
        d₂.attestation.contributor_pubkey).map ContributorScore.trust_score).getD 0))
      (alterAL d₁.contract_key
        (updateEntry d₁ (1 + ((lookupAL s.contributors
          d₁.attestation.contributor_pubkey).map ContributorScore.trust_score).getD 0))
        s.entries), s.contributors⟩ : CatalogState) =
    ⟨alterAL d₁.contract_key
      (updateEntry d₁ (1 + ((lookupAL s.contributors
        d₁.attestation.contributor_pubkey).map ContributorScore.trust_score).getD 0))
      (alterAL d₂.contract_key
        (updateEntry d₂ (1 + ((lookupAL s.contributors
          d₂.attestation.contributor_pubkey).map ContributorScore.trust_score).getD 0))
        s.entries), s.contributors⟩
  refine congrArg (fun es => CatalogState.mk es s.contributors) ?_
  by_cases hk : d₁.contract_key = d₂.contract_key
  · rw [hk, alterAL_alterAL_same, alterAL_alterAL_same]
    refine congrArg (fun f => alterAL d₂.contract_key f s.entries)
      (funext fun oe => ?_)
    refine updateEntry_comm d₁ d₂ _ _ hk ?_ oe
    intro hh ov
    have heq : metadata_hash d₁.title d₁.description d₁.snippet =
        metadata_hash d₂.title d₂.description d₂.snippet := by
      rw [← hhash₁, ← hhash₂]
      exact hh
    obtain ⟨ht, hd, hs⟩ := metadata_hash_inj
      (lt_of_le_of_lt hlt₁ (by norm_num)) (lt_of_le_of_lt hld₁ (by norm_num))
      (lt_of_le_of_lt hlt₂ (by norm_num)) (lt_of_le_of_lt hld₂ (by norm_num)) heq
    refine updateVariant_comm d₁ d₂ _ _ ht hd hs ?_ ov
    intro hpk
    obtain ⟨htok, hcre⟩ := hagree hk hh hpk
    dsimp only
    rw [hpk, htok, hcre]
  · exact alterAL_comm_ne (fun hc => hk hc.symm) _ _ _

/-- Folding a list of valid deltas through the update loop never fails and
equals the plain fold of `apply_delta_to_state`. -/
theorem foldlM_deltas : ∀ (l : List CatalogDelta) (s : CatalogState),
    (∀ d ∈ l, validate_delta d = .ok ()) →
    (l.map UpdateData.delta).foldlM apply_one s =
      .ok (l.foldl apply_delta_to_state s)
  | [], s, _ => rfl
  | d :: l, s, h => by
      have hd := h d (List.mem_cons_self d l)
      rw [List.map_cons, List.foldlM_cons, List.foldl_cons]
      have h1 : apply_one s (.delta d) = .ok (apply_delta_to_state s d) := by
        show (match validate_delta d with
          | Except.error e => Except.error e
          | Except.ok _ => Except.ok (apply_delta_to_state s d)) =
          .ok (apply_delta_to_state s d)
        rw [hd]
      rw [h1]
      show (l.map UpdateData.delta).foldlM apply_one (apply_delta_to_state s d) =
        .ok (l.foldl apply_delta_to_state (apply_delta_to_state s d))
      exact foldlM_deltas l (apply_delta_to_state s d)
        (fun x hx => h x (List.mem_cons_of_mem d hx))

end ContractCatalog

/-- C1, corrected: applying any permutation of a multiset of valid catalog
deltas through `update_state` (each delta validated and applied in order,
with the single finalization pass at the end) yields equal — hence
bit-identically serialized — final states, PROVIDED any two deltas in the
multiset that share contract key, metadata hash and contributor pubkey also
agree on the attestation's antiflood token and creation time.  Without that
proviso the claim is false (see the counterexample): the first such delta
applied wins the attestation's token fields. -/
theorem C1_update_permutation_amended (threshold : Nat)
    (s : ContractCatalog.CatalogState)
    (l₁ l₂ : List ContractCatalog.CatalogDelta) (hperm : l₁.Perm l₂)
    (hv : ∀ d ∈ l₁, ContractCatalog.validate_delta d = .ok ())
    (hagree : ∀ d ∈ l₁, ∀ d' ∈ l₁,
      d.contract_key = d'.contract_key →
      d.metadata_hash = d'.metadata_hash →
      d.attestation.contributor_pubkey = d'.attestation.contributor_pubkey →
      d.attestation.antiflood_token = d'.attestation.antiflood_token ∧
        d.attestation.token_created_at = d'.attestation.token_created_at) :
    ContractCatalog.update_state threshold s (l₁.map .delta) =
      ContractCatalog.update_state threshold s (l₂.map .delta) := by
  have hv₂ : ∀ d ∈ l₂, ContractCatalog.validate_delta d = .ok () :=
    fun d hd => hv d (hperm.mem_iff.2 hd)
  have hfold : l₁.foldl ContractCatalog.apply_delta_to_state s =
      l₂.foldl ContractCatalog.apply_delta_to_state s :=
    hperm.foldl_eq'
      (fun x hx y hy z => ContractCatalog.apply_delta_comm z x y (hv x hx) (hv y hy)
        (hagree x hx y hy)) s
  unfold ContractCatalog.update_state
  rw [ContractCatalog.foldlM_deltas l₁ s hv, ContractCatalog.foldlM_deltas l₂ s hv₂,
    hfold]

/-- A pair of valid deltas refuting claim C1 as stated: same contract key,
same metadata hash, same contributor pubkey, but different
`token_created_at`.  Whichever delta is applied first wins the stored
attestation's creation time, so the two orders give different states. -/
def c1d (t : Nat) : ContractCatalog.CatalogDelta :=
  { contract_key := [97]
    title := []
    description := []
    mini_snippet := []
    snippet := []
    size_bytes := 0
    version := none
    metadata_hash := SearchCommon.metadata_hash [] [] []
    attestation :=
      { contributor_pubkey := List.replicate 32 1
        antiflood_token := { nonce := [0], difficulty := 1 }
        token_created_at := t
        weight := 0 } }

/-- C1 counterexample: the two orders of the same two-element multiset of
valid deltas produce different final states after the single finalization
pass, refuting the claimed permutation-invariance in general. -/
theorem C1_counterexample :
    ([c1d 1, c1d 2].Perm [c1d 2, c1d 1]) ∧
      ContractCatalog.validate_delta (c1d 1) = .ok () ∧
      ContractCatalog.validate_delta (c1d 2) = .ok () ∧
      ContractCatalog.update_state 3 ⟨[], []⟩ ([c1d 1, c1d 2].map .delta) ≠
        ContractCatalog.update_state 3 ⟨[], []⟩ ([c1d 2, c1d 1].map .delta) := by
  refine ⟨List.Perm.swap _ _ _, by decide, by decide, by decide⟩

/-- Deltas used by the C1 witness: distinct contract keys and pubkeys. -/
def c1w (k pk : Nat) : ContractCatalog.CatalogDelta :=
  { contract_key := [k]
    title := []
    description := []
    mini_snippet := []
    snippet := []
    size_bytes := 0
    version := none
    metadata_hash := SearchCommon.metadata_hash [] [] []
    attestation :=
      { contributor_pubkey := List.replicate 32 pk
        antiflood_token := { nonce := [0], difficulty := 1 }
        token_created_at := 1
        weight := 0 } }

/-- Witness for the amended C1: a concrete two-delta permutation with every
hypothesis discharged by evaluation. -/
theorem C1_update_permutation_amended_witness :
    ContractCatalog.update_state 3 ⟨[], []⟩ ([c1w 97 1, c1w 98 2].map .delta) =
      ContractCatalog.update_state 3 ⟨[], []⟩ ([c1w 98 2, c1w 97 1].map .delta) :=
  C1_update_permutation_amended 3 ⟨[], []⟩ [c1w 97 1, c1w 98 2] [c1w 98 2, c1w 97 1]
    (List.Perm.swap _ _ _) (by decide) (by decide)
